import Mathlib

/-!
# Verification of the Forcepoint-to-FortiGate parsing pipeline

A shallow embedding of the core of `Forcepoint XML Parser V2/app.py`:
the name sanitizer, the built-in mapping table, the reference resolver,
the tree flattener, the object extractor, and the push loop, together
with theorems settling the specification claims about them.

Python strings are modelled as Lean `String` (with `List Char` cores);
the embedding covers the ASCII fragment of Python's character classes
(`\w`, `str.strip`), which is the fragment the naming grammar targets.
-/

namespace Forcepoint

/-! ## Character classes (ASCII fragment of the Python predicates) -/

/-- Characters removed by Python's `str.strip()` (ASCII whitespace). -/
def isSpaceB (c : Char) : Bool :=
  c == ' ' || c == '\t' || c == '\n' || c == '\r' || c == '\x0b' || c == '\x0c'

/-- The regex class `\w`: alphanumerics and underscore. -/
def isWordB (c : Char) : Bool := c.isAlphanum || c == '_'

/-- The class `[\w\-\.]` kept by the sanitizer's substitution step. -/
def isLegalB (c : Char) : Bool := isWordB c || c == '-' || c == '.'

/-! ## List-of-char primitives mirroring the Python string operations -/

/-- Drop the longest run of characters satisfying `p` from the end. -/
def dropEnd (p : Char → Bool) (l : List Char) : List Char :=
  (l.reverse.dropWhile p).reverse

/-- Strip characters satisfying `p` from both ends (Python `str.strip(chars)`). -/
def stripBoth (p : Char → Bool) (l : List Char) : List Char :=
  dropEnd p (l.dropWhile p)

/-- Python `str.strip()` with no argument: strip whitespace. -/
def pyStrip (l : List Char) : List Char := stripBoth isSpaceB l

/-- `re.sub(r'[^\w\-\.]', '_', s)`: every illegal character becomes `'_'`. -/
def subIllegal (l : List Char) : List Char :=
  l.map (fun c => if isLegalB c then c else '_')

/-- `re.sub(r'_+', '_', s)`: collapse each run of underscores to a single one. -/
def collapseU : List Char → List Char
  | [] => []
  | [c] => [c]
  | a :: b :: rest =>
      if a = '_' ∧ b = '_' then collapseU (b :: rest)
      else a :: collapseU (b :: rest)

/-- Core of `sanitize_name(orig, max_len)` from app.py lines 23-32, on char lists:
strip whitespace, substitute illegal characters with `'_'`, collapse runs of
underscores, strip underscores from both ends, strip trailing periods,
substitute the placeholder `obj` for an empty result, truncate to `max_len`. -/
def sanitize_core (orig : List Char) (max_len : Nat) : List Char :=
  let s1 := pyStrip orig
  let s2 := subIllegal s1
  let s3 := collapseU s2
  let s4 := stripBoth (fun c => c == '_') s3
  let s5 := dropEnd (fun c => c == '.') s4
  let s6 := if s5 = [] then ['o', 'b', 'j'] else s5
  s6.take max_len

/-- `sanitize_name` at its default maximum length 79, on `String`. -/
def sanitize_name (orig : String) : String := String.mk (sanitize_core orig.data 79)

/-- Python `str.strip()` on `String`. -/
def pyStripS (s : String) : String := String.mk (pyStrip s.data)

/-! ## The foreign naming grammar, as output predicates -/

/-- Boolean check that no two adjacent characters are both underscores. -/
def noDDb : List Char → Bool
  | [] => true
  | [_] => true
  | a :: b :: t => !(a == '_' && b == '_') && noDDb (b :: t)

/-- No two adjacent underscores (the output form of "consecutive illegal
characters are collapsed into a single underscore"). -/
def NoDoubleUS (l : List Char) : Prop := noDDb l = true

instance (l : List Char) : Decidable (NoDoubleUS l) :=
  inferInstanceAs (Decidable (_ = true))

/-! ## De-duplication preserving first occurrence.

The loop `members = [m for m in members if not (m in seen or seen.add(m))]`
from app.py lines 244-246 and 298-300: keep a member only if it has not
been seen yet, marking each kept member as seen. -/

/-- The comprehension body, with the running `seen` set made explicit. -/
def dedupFirstAux (seen : List String) : List String → List String
  | [] => []
  | m :: ms =>
      if m ∈ seen then dedupFirstAux seen ms
      else m :: dedupFirstAux (m :: seen) ms

/-- De-duplication with an initially empty `seen` set. -/
def dedupFirst (l : List String) : List String := dedupFirstAux [] l

/-! ## XML element model

An `xml.etree.ElementTree` element: a tag, an ordered attribute mapping, the
optional text content, and the ordered child list. The child list is a
mutually inductive list type so that all traversals are structural. -/

mutual
inductive Element where
  | mk (tag : String) (attrib : List (String × String)) (text : Option String)
      (children : ElemList)
inductive ElemList where
  | nil
  | cons (e : Element) (rest : ElemList)
end

def Element.tag : Element → String
  | .mk t _ _ _ => t

def Element.attrib : Element → List (String × String)
  | .mk _ a _ _ => a

def Element.text : Element → Option String
  | .mk _ _ x _ => x

def Element.children : Element → ElemList
  | .mk _ _ _ cs => cs

def ElemList.toList : ElemList → List Element
  | .nil => []
  | .cons e rest => e :: ElemList.toList rest

/-- Build an `ElemList` from a `List Element` (used to write concrete documents). -/
def elemList : List Element → ElemList
  | [] => .nil
  | e :: rest => .cons e (elemList rest)

mutual
/-- `el.iter()`: document-order (preorder) traversal, the element itself first. -/
def iterAll : Element → List Element
  | .mk t a x cs => .mk t a x cs :: iterAllL cs
def iterAllL : ElemList → List Element
  | .nil => []
  | .cons e rest => iterAll e ++ iterAllL rest
end

/-- `root.iter(tag)`: document-order traversal filtered by tag. -/
def iterTag (root : Element) (t : String) : List Element :=
  (iterAll root).filter (fun el => el.tag == t)

/-- `el.attrib.get(k, d)`. -/
def getAttr (el : Element) (k d : String) : String :=
  match el.attrib.lookup k with
  | some v => v
  | none => d

/-- `el.findall(t)`: direct children with the given tag, in document order. -/
def findall (el : Element) (t : String) : List Element :=
  el.children.toList.filter (fun c => c.tag == t)

/-- `el.find(t)`: the first direct child with the given tag, if any. -/
def findFirst (el : Element) (t : String) : Option Element :=
  el.children.toList.find? (fun c => c.tag == t)

/-- Python string slicing `s[:n]`, by characters. -/
def takeStr (s : String) (n : Nat) : String := String.mk (s.data.take n)

/-! ## Pass 1: the name registry (app.py lines 155-167)

`extract_objects` first clears the module-level `_name_map`, then walks the
document once over the name-bearing tags, collecting every non-empty stripped
`name` attribute into the set `xml_names` and calling `sanitize_name` on it,
which records `orig ↦ sanitized` in `_name_map` whenever the two differ. -/

def xml_object_tags : List String :=
  ["host", "network", "address_range", "group",
   "gen_service_group", "service_tcp", "service_udp"]

/-- The non-empty stripped `name` attribute of an element, if any. -/
def elName (el : Element) : Option String :=
  let n := pyStripS (getAttr el "name" "")
  if n = "" then none else some n

/-- The `xml_names` set built by pass 1 (as a list; only membership is used). -/
def xml_names (root : Element) : List String :=
  xml_object_tags.flatMap (fun t => (iterTag root t).filterMap elName)

/-- `_name_map.get(orig, orig)` after pass 1: pass 1 put `orig ↦ sanitize_name orig`
into `_name_map` exactly for the collected names whose sanitized form differs. -/
def nameMapGet (root : Element) (orig : String) : String :=
  if orig ∈ xml_names root ∧ sanitize_name orig ≠ orig then sanitize_name orig else orig

/-! ## The Forcepoint built-in → FortiGate built-in table (app.py lines 40-74) -/

def BUILTIN_MAP : List (String × String) :=
  [("HTTP", "HTTP"),
   ("HTTPS", "HTTPS"),
   ("FTP", "FTP"),
   ("SSH", "SSH"),
   ("Remote Desktop", "RDP"),
   ("DNS (TCP)", "DNS"),
   ("DNS (TCP with SafeSearch)", "DNS"),
   ("NTP (TCP)", "NTP"),
   ("Kerberos", "Kerberos"),
   ("Kpasswd", "Kerberos"),
   ("LDAP (TCP)", "LDAP"),
   ("LDAPS (TCP)", "LDAPS"),
   ("LDAPS (with decryption)", "LDAPS"),
   ("Microsoft-DS", "Microsoft-DS"),
   ("Microsoft Global Catalog LDAP (TCP)", "LDAP"),
   ("Microsoft Global Catalog LDAPS (TCP)", "LDAPS"),
   ("SIP (TCP)", "SIP"),
   ("SIP Control (TCP)", "SIP"),
   ("SCCP", "SCCP"),
   ("HTTP (SafeSearch)", "HTTP"),
   ("IMAPS", "IMAPS"),
   ("DNS (UDP)", "DNS"),
   ("NTP (UDP)", "NTP"),
   ("LDAP (UDP)", "LDAP"),
   ("LDAPS (UDP)", "LDAPS"),
   ("NetBIOS Datagram", "NetBIOS"),
   ("SIP (UDP)", "SIP"),
   ("SIP Control (UDP)", "SIP"),
   ("TFTP", "TFTP"),
   ("Ping", "PING")]

/-- `resolve(ref)` from app.py lines 169-180: a name defined in the document
resolves to its sanitized form; otherwise a known Forcepoint built-in maps to
its FortiGate equivalent; otherwise the reference is unresolved (`none`). -/
def resolve (root : Element) (ref : String) : Option String :=
  if ref ∈ xml_names root then some (nameMapGet root ref)
  else
    match BUILTIN_MAP.lookup ref with
    | some v => some v
    | none => none

/-! ## Typed records (the dicts built by `extract_objects`) -/

/-- A host or network record (`type` is always `"ipmask"`). -/
structure AddrRec where
  orig_name : String
  name : String
  type : String
  subnet : String
  comment : String
  deriving DecidableEq, Repr

/-- An address-range record (`type` is always `"iprange"`); `start_ip`/`end_ip`
stand for the `start-ip`/`end-ip` keys. -/
structure RangeRec where
  orig_name : String
  name : String
  type : String
  start_ip : String
  end_ip : String
  deriving DecidableEq, Repr

/-- A network-group or service-group record. -/
structure GroupRec where
  orig_name : String
  name : String
  member : List String
  skipped_refs : List String
  deriving DecidableEq, Repr

/-- A TCP or UDP service record; `portrange` stands for the
`tcp-portrange`/`udp-portrange` key selected by `protocol`. -/
structure ServiceRec where
  orig_name : String
  name : String
  protocol : String
  portrange : String
  comment : String
  deriving DecidableEq, Repr

/-! ## IPv4 parsing (the `ipaddress.IPv4Network(net, strict=False)` calls) -/

/-- Split a character list at every occurrence of `sep`. -/
def splitOnChar (sep : Char) : List Char → List (List Char)
  | [] => [[]]
  | c :: t =>
      if c = sep then [] :: splitOnChar sep t
      else
        match splitOnChar sep t with
        | [] => [[c]]
        | p :: ps => (c :: p) :: ps

/-- Split at the first occurrence of `sep` only (Python `s.split(sep, 1)`);
`none` when `sep` does not occur. -/
def splitOnce (sep : Char) : List Char → Option (List Char × List Char)
  | [] => none
  | c :: t =>
      if c = sep then some ([], t)
      else
        match splitOnce sep t with
        | some (a, b) => some (c :: a, b)
        | none => none

/-- A decimal value from a digit list. -/
def digitsVal (cs : List Char) : Nat :=
  cs.foldl (fun acc c => acc * 10 + (c.toNat - 48)) 0

/-- One dotted-quad octet: 1-3 digits, no leading zero (unless exactly `0`),
value at most 255 — as `ipaddress` parses it. -/
def parseOctet (cs : List Char) : Option Nat :=
  if cs ≠ [] ∧ cs.length ≤ 3 ∧ (∀ c ∈ cs, c.isDigit) ∧
      (1 < cs.length → cs.head? ≠ some '0') then
    if digitsVal cs ≤ 255 then some (digitsVal cs) else none
  else none

/-- A dotted-quad IPv4 address as a 32-bit value. -/
def parseIPv4 (cs : List Char) : Option Nat :=
  match splitOnChar '.' cs with
  | [a, b, c, d] =>
      match parseOctet a, parseOctet b, parseOctet c, parseOctet d with
      | some x, some y, some z, some w => some (((x * 256 + y) * 256 + z) * 256 + w)
      | _, _, _, _ => none
  | _ => none

/-- A prefix length `0..32` written in decimal digits. -/
def parsePrefixLen (cs : List Char) : Option Nat :=
  if cs ≠ [] ∧ (∀ c ∈ cs, c.isDigit) then
    if digitsVal cs ≤ 32 then some (digitsVal cs) else none
  else none

/-- Dotted-quad rendering of a 32-bit value. -/
def ipv4ToString (n : Nat) : String :=
  toString (n / 16777216 % 256) ++ "." ++ toString (n / 65536 % 256) ++ "."
    ++ toString (n / 256 % 256) ++ "." ++ toString (n % 256)

/-- The netmask of a prefix length (high `p` bits set). -/
def maskOfPrefixLen (p : Nat) : Nat := (4294967295 >>> (32 - p)) <<< (32 - p)

/-! ## Object extraction (app.py lines 183-317) -/

/-- Hosts (lines 183-195): the gate is a non-empty stripped `address` on the
nested `mvia_address` child; the subnet is the address with a /32 mask. -/
def hostOf (root : Element) (el : Element) : Option AddrRec :=
  let ip := match findFirst el "mvia_address" with
            | some ipEl => pyStripS (getAttr ipEl "address" "")
            | none => ""
  if ip = "" then none
  else
    let orig := pyStripS (getAttr el "name" "")
    some { orig_name := orig, name := nameMapGet root orig, type := "ipmask",
           subnet := ip ++ " 255.255.255.255",
           comment := takeStr (getAttr el "comment" "") 255 }

/-- Networks (lines 197-213): the `ipv4_network` attribute must contain `/` and
parse as an IPv4 CIDR; host bits are masked off (`strict=False`). -/
def networkOf (root : Element) (el : Element) : Option AddrRec :=
  let net := pyStripS (getAttr el "ipv4_network" "")
  if '/' ∈ net.data then
    match splitOnChar '/' net.data with
    | [addrPart, maskPart] =>
        match parseIPv4 addrPart, parsePrefixLen maskPart with
        | some a, some p =>
            let netAddr := (a >>> (32 - p)) <<< (32 - p)
            let orig := pyStripS (getAttr el "name" "")
            some { orig_name := orig, name := nameMapGet root orig, type := "ipmask",
                   subnet := ipv4ToString netAddr ++ " "
                     ++ ipv4ToString (maskOfPrefixLen p),
                   comment := takeStr (getAttr el "comment" "") 255 }
        | _, _ => none
    | _ => none
  else none

/-- Address ranges (lines 215-228): `ip_range` must contain `-`; it is split at
the first `-` and both halves are trimmed. -/
def rangeOf (root : Element) (el : Element) : Option RangeRec :=
  let r := pyStripS (getAttr el "ip_range" "")
  match splitOnce '-' r.data with
  | some (a, b) =>
      let orig := pyStripS (getAttr el "name" "")
      some { orig_name := orig, name := nameMapGet root orig, type := "iprange",
             start_ip := pyStripS (String.mk a), end_ip := pyStripS (String.mk b) }
  | none => none

/-- The non-empty stripped `ref` attributes of a group's member children
(the loop skips empty references entirely). -/
def groupRefs (memberTag : String) (el : Element) : List String :=
  (findall el memberTag).filterMap (fun ne =>
    let r := pyStripS (getAttr ne "ref" "")
    if r = "" then none else some r)

/-- The member-resolution loop of lines 234-243 / 288-297: resolved references
accumulate in order into the member list, unresolved ones into the skip list. -/
def resolveRefs (root : Element) : List String → (List String × List String)
  | [] => ([], [])
  | r :: rs =>
      let p := resolveRefs root rs
      match resolve root r with
      | some m => (m :: p.1, p.2)
      | none => (p.1, r :: p.2)

/-- Groups (lines 231-253 and 285-307, with `memberTag` = `ne_list` for address
groups and `service_ref` for service groups): members are resolved, then
de-duplicated preserving order; the record is dropped when no member resolved. -/
def groupOf (root : Element) (memberTag : String) (el : Element) : Option GroupRec :=
  let orig := pyStripS (getAttr el "name" "")
  let rp := resolveRefs root (groupRefs memberTag el)
  let members := dedupFirst rp.1
  if members = [] then none
  else some { orig_name := orig, name := nameMapGet root orig,
              member := members, skipped_refs := rp.2 }

/-- TCP/UDP services (lines 256-282): the gate is a non-empty stripped minimum
destination port; the missing maximum defaults to the minimum; the port range
is `min-max` when they differ and non-empty, else the single minimum. -/
def serviceOf (root : Element) (proto : String) (el : Element) : Option ServiceRec :=
  let min_p := pyStripS (getAttr el "min_dst_port" "")
  let max_p := pyStripS (getAttr el "max_dst_port" min_p)
  if min_p = "" then none
  else
    let pr := if max_p ≠ "" ∧ max_p ≠ min_p then min_p ++ "-" ++ max_p else min_p
    let orig := pyStripS (getAttr el "name" "")
    some { orig_name := orig, name := nameMapGet root orig, protocol := proto,
           portrange := pr, comment := takeStr (getAttr el "comment" "") 255 }

/-- The result of `extract_objects` (app.py lines 309-317). -/
structure ExtractResult where
  hosts : List AddrRec
  networks : List AddrRec
  addr_ranges : List RangeRec
  net_groups : List GroupRec
  services : List ServiceRec
  service_groups : List GroupRec
  name_map : List (String × String)
  deriving DecidableEq, Repr

/-- `extract_objects` (app.py lines 150-317). -/
def extract_objects (root : Element) : ExtractResult :=
  { hosts := (iterTag root "host").filterMap (hostOf root)
    networks := (iterTag root "network").filterMap (networkOf root)
    addr_ranges := (iterTag root "address_range").filterMap (rangeOf root)
    net_groups := (iterTag root "group").filterMap (groupOf root "ne_list")
    services := (iterTag root "service_tcp").filterMap (serviceOf root "TCP")
      ++ (iterTag root "service_udp").filterMap (serviceOf root "UDP")
    service_groups :=
      (iterTag root "gen_service_group").filterMap (groupOf root "service_ref")
    name_map := (dedupFirst (xml_names root)).filterMap
      (fun n => if sanitize_name n ≠ n then some (n, sanitize_name n) else none) }

/-- Scenario 3 document: a locally defined host `WebSrv` and a group `Grp1`
referencing `WebSrv`, the built-in `DNS (TCP)`, and the undefined `GhostObj`. -/
def scenarioHost : Element :=
  .mk "host" [("name", "WebSrv")] none
    (elemList [.mk "mvia_address" [("address", "10.0.0.5")] none (elemList [])])

def scenarioGroup : Element :=
  .mk "group" [("name", "Grp1")] none
    (elemList [.mk "ne_list" [("ref", "WebSrv")] none (elemList []),
               .mk "ne_list" [("ref", "DNS (TCP)")] none (elemList []),
               .mk "ne_list" [("ref", "GhostObj")] none (elemList [])])

def scenarioRoot : Element := .mk "config" [] none (elemList [scenarioHost, scenarioGroup])

/-! ## Claim C4 helpers: every record's name comes from the registry -/

/-- The naming-grammar conditions claimed for every record name. -/
def nameOK (n : String) : Prop :=
  n ≠ "" ∧ n.length ≤ 79 ∧ ∀ c ∈ n.data, isLegalB c = true

instance (n : String) : Decidable (nameOK n) := by
  rw [nameOK]; infer_instance

/-! ## Claim C4 -/

/-- A document whose single host element has no `name` attribute but a valid
address: the extractor still emits a record for it, with an empty name. -/
def unnamedHostRoot : Element :=
  .mk "config" [] none (elemList [
    .mk "host" [] none
      (elemList [.mk "mvia_address" [("address", "10.0.0.1")] none (elemList [])])])

/-- A document with at least one record in every category, every element
carrying a non-empty name. -/
def fullRoot : Element :=
  .mk "config" [] none (elemList [
    scenarioHost, scenarioGroup,
    .mk "network" [("name", "LAN 1"), ("ipv4_network", "192.168.1.0/24")] none
      (elemList []),
    .mk "address_range" [("name", "Rng"), ("ip_range", "10.1.1.10 - 10.1.1.20")] none
      (elemList []),
    .mk "service_tcp" [("name", "Svc TCP"), ("min_dst_port", "80")] none (elemList []),
    .mk "service_udp" [("name", "SvcU"), ("min_dst_port", "53")] none (elemList []),
    .mk "gen_service_group" [("name", "SG")] none
      (elemList [.mk "service_ref" [("ref", "Svc TCP")] none (elemList [])])])

/-! ## The push loop

`FGClient.upsert` (app.py lines 363-364) and the `fg_push` route (lines
1416-1489). The remote store is modelled by the initial existing-name set
(the one `get_existing` fetch) and a response function `respond` giving each
item's upsert outcome: a transport failure (exception message) or a status
code with the response text. -/

/-- The six pushable categories (the keys of the `EP` table, lines 369-376). -/
inductive PushCat where
  | hosts
  | networks
  | addr_ranges
  | net_groups
  | services
  | service_groups
  deriving DecidableEq, Repr

/-- The two group categories report their `skipped_refs` while building the
payload. -/
def PushCat.isGroup : PushCat → Bool
  | .net_groups => true
  | .service_groups => true
  | _ => false

/-- One entry of the pushed `items` list — the fields the loop control flow
reads (`name`, `orig_name`, `skipped_refs`); an `Option` field is `none` when
the key is absent from the JSON dict. -/
structure PushItem where
  name : Option String
  orig_name : Option String
  skipped_refs : List String
  deriving DecidableEq, Repr

/-- A remote call issued by `fg_push`. -/
inductive Call where
  | getExisting
  | post (name : String)
  | put (name : String)
  deriving DecidableEq, Repr

/-- One entry of the `results` list (`status` values `ok` / `skip` / `err`). -/
inductive Outcome where
  | ok (name orig : String) (code : Nat)
  | skip (name orig msg : String)
  | err (name orig msg : String)
  deriving DecidableEq, Repr

/-- The behaviour of one `upsert` call. -/
abbrev UpsertResp := Except String (Nat × String)

/-- The body of the `for item in items` loop (lines 1432-1486): skip with no
remote call on an empty stripped name; otherwise emit one skip outcome per
`skipped_refs` entry for group categories, and upsert — a PUT when the name is
already in the existing-name set, else a POST; a 200/201/204 response records
`ok` and adds the name to the existing set; any other response records `err`
with the truncated `HTTP code: text` message; a transport failure records
`err` with the truncated exception message. Returns the outcomes, the call
made (if any), and the updated existing set. -/
def pushStep (cat : PushCat) (existing : List String) (item : PushItem)
    (resp : UpsertResp) : List Outcome × Option Call × List String :=
  let name := pyStripS (item.name.getD "")
  let orig := item.orig_name.getD name
  if name = "" then
    ([Outcome.skip "" "" "Empty name"], none, existing)
  else
    let skips := if cat.isGroup then
        item.skipped_refs.map (fun ref => Outcome.skip ref ref
          ("Not in XML (Forcepoint built-in) — skipped from group " ++ name))
      else []
    let call := if name ∈ existing then Call.put name else Call.post name
    match resp with
    | .ok (code, txt) =>
        if code = 200 ∨ code = 201 ∨ code = 204 then
          (skips ++ [Outcome.ok name orig code], some call, name :: existing)
        else
          (skips ++ [Outcome.err name orig
            ("HTTP " ++ toString code ++ ": " ++ takeStr txt 150)], some call, existing)
    | .error e =>
        (skips ++ [Outcome.err name orig (takeStr e 150)], some call, existing)

/-- The loop over `items`, threading the existing-name set; `respond i` is the
remote behaviour for the item at index `i`. Each item yields its outcome list
and its remote call (if any). -/
def pushLoop (cat : PushCat) (respond : Nat → UpsertResp) :
    Nat → List String → List PushItem → List (List Outcome × Option Call)
  | _, _, [] => []
  | i, existing, item :: rest =>
      let r := pushStep cat existing item (respond i)
      (r.1, r.2.1) :: pushLoop cat respond (i + 1) r.2.2 rest

/-- `fg_push` for one category: `get_existing` is called once, before the
loop, and its result seeds the existing-name set. -/
def fg_push (cat : PushCat) (respond : Nat → UpsertResp) (existing0 : List String)
    (items : List PushItem) : List (List Outcome × Option Call) :=
  pushLoop cat respond 0 existing0 items

/-- The trace of remote calls: the single `get_existing`, then each item's
upsert call in order. -/
def fg_push_calls (cat : PushCat) (respond : Nat → UpsertResp)
    (existing0 : List String) (items : List PushItem) : List Call :=
  Call.getExisting :: (fg_push cat respond existing0 items).filterMap Prod.snd

/-! ## The tree flattener (app.py lines 79-110)

A flattened row is an ordered association list with Python-dict assignment
semantics: writing an existing key replaces its value in place, writing a new
key appends. Lookup returns the first (hence current) binding. -/

/-- Python dict assignment `row[k] = v`: replace the binding in place when the
key exists, else append the new binding at the end. -/
def dictSet : List (String × String) → String → String → List (String × String)
  | [], k, v => [(k, v)]
  | (k0, v0) :: rest, k, v =>
      if k0 = k then (k0, v) :: rest else (k0, v0) :: dictSet rest k v

/-- A sequence of dict assignments (also Python's `row.update(...)`). -/
def dictSets (row : List (String × String)) :
    List (String × String) → List (String × String)
  | [] => row
  | (k, v) :: rest => dictSets (dictSet row k v) rest

/-- `" | ".join(vals)`. -/
def joinSep : List String → String
  | [] => ""
  | [v] => v
  | v :: rest => v ++ " | " ++ joinSep rest

/-- Attribute-value truncation for display (line 82). -/
def truncVal (v : String) : String :=
  if 500 < v.length then takeStr v 200 ++ "...[truncated]" else v

/-- The non-empty stripped text of an element (`c.text and c.text.strip()`). -/
def textVal (el : Element) : Option String :=
  match el.text with
  | none => none
  | some tx => if pyStripS tx = "" then none else some (pyStripS tx)

/-- How many direct children carry tag `t`. -/
def countTag (cs : List Element) (t : String) : Nat :=
  (cs.filter (fun c => c.tag == t)).length

/-- The distinct child tags in first-seen order. -/
def childTags (cs : List Element) : List String := dedupFirst (cs.map Element.tag)

/-- The tags occurring more than once, in first-seen order (the `grouped` dict). -/
def groupedTags (cs : List Element) : List String :=
  (childTags cs).filter (fun t => decide (1 < countTag cs t))

/-- The union of the instances' attribute keys in first-seen order
(`dict.fromkeys(k for c in children for k in c.attrib)`). -/
def unionKeys (insts : List Element) : List String :=
  dedupFirst (insts.flatMap (fun c => c.attrib.map Prod.fst))

/-- The `|`-joined values of exactly the instances carrying key `k`, in order
(`" | ".join(c.attrib[k] for c in children if k in c.attrib)`). -/
def joinedAttr (insts : List Element) (k : String) : String :=
  joinSep (insts.filterMap (fun c => c.attrib.lookup k))

/-- The instances' non-empty trimmed texts, in order. -/
def groupTexts (insts : List Element) : List String :=
  insts.filterMap textVal

/-- Processing of one grouped tag (lines 92-107): write one column per union
attribute key with the joined values; if no instance carries any attribute,
fall back to the joined texts; then apply the same attribute-union rule one
level down to the grandchildren, grouped by their tag (`ggg`). -/
def groupCols (cp : String) (insts : List Element)
    (row : List (String × String)) : List (String × String) :=
  let keys := unionKeys insts
  let row1 :=
    if keys ≠ [] then
      dictSets row (keys.map (fun k => (cp ++ k, joinedAttr insts k)))
    else
      match groupTexts insts with
      | [] => row
      | v :: vs => dictSet row (cp ++ "_text") (joinSep (v :: vs))
  let gchildren := insts.flatMap (fun c => c.children.toList)
  (dedupFirst (gchildren.map Element.tag)).foldl (fun r gt =>
    let gl := gchildren.filter (fun gc => gc.tag == gt)
    dictSets r ((unionKeys gl).map (fun k => (cp ++ gt ++ "." ++ k, joinedAttr gl k))))
    row1

mutual
/-- `flatten_element(el, prefix)` (lines 79-110): attributes (truncated for
display) become prefixed columns; non-empty trimmed text becomes `_text`;
grouped child tags are handled by `groupCols`; singular children are flattened
recursively under a `tag.` prefix and merged with dict-update semantics. -/
def flatten_element : Element → String → List (String × String)
  | .mk _ attrib text cs, pre =>
      let children := cs.toList
      let row0 := dictSets [] (attrib.map (fun kv => (pre ++ kv.1, truncVal kv.2)))
      let row1 :=
        match text with
        | none => row0
        | some tx =>
            if pyStripS tx = "" then row0
            else dictSet row0 (pre ++ "_text") (pyStripS tx)
      let row2 := (groupedTags children).foldl (fun r t =>
          groupCols (pre ++ t ++ ".") (children.filter (fun c => c.tag == t)) r) row1
      flattenSingles children cs pre row2

/-- The `for tag, child in single.items()` loop: walk the children in document
order and merge the recursive flattening of each singular child. -/
def flattenSingles (allcs : List Element) : ElemList → String
    → List (String × String) → List (String × String)
  | .nil, _, row => row
  | .cons c rest, pre, row =>
      if countTag allcs c.tag = 1 then
        flattenSingles allcs rest pre
          (dictSets row (flatten_element c (pre ++ c.tag ++ ".")))
      else
        flattenSingles allcs rest pre row
end

/-! ## Row and column-path lemmas -/

/-- A string containing no period: with period-free tags and attribute keys,
distinct logical columns get distinct dotted paths. -/
def dotFree (s : String) : Prop := '.' ∉ s.data

instance (s : String) : Decidable (dotFree s) :=
  inferInstanceAs (Decidable (¬ _))

/-- Two same-tag children carrying a dotted attribute key `a.b` and a
grandchild tag `a` with key `b`: both map to the column path `p.a.b`. -/
def dottedChild1 : Element :=
  .mk "p" [("a.b", "1")] none (elemList [.mk "a" [("b", "2")] none (elemList [])])

def dottedChild2 : Element :=
  .mk "p" [("a.b", "3")] none (elemList [.mk "a" [("b", "4")] none (elemList [])])

def dottedRoot : Element := .mk "top" [] none (elemList [dottedChild1, dottedChild2])

theorem data_mk (l : List Char) : (String.mk l).data = l := rfl

theorem mk_data (s : String) : String.mk s.data = s := rfl

theorem sanitize_name_def (s : String) :
    sanitize_name s = String.mk (sanitize_core s.data 79) := rfl

theorem sanitize_name_data (s : String) :
    (sanitize_name s).data = sanitize_core s.data 79 := by
  rw [sanitize_name_def]

theorem length_data (s : String) : s.length = s.data.length := rfl

theorem noDoubleUS_iff_chain' : ∀ {l : List Char},
    NoDoubleUS l ↔ l.Chain' (fun a b => ¬(a = '_' ∧ b = '_'))
  | [] => by simp [NoDoubleUS, noDDb]
  | [a] => by simp [NoDoubleUS, noDDb]
  | a :: b :: t => by
      rw [NoDoubleUS, noDDb, List.chain'_cons, Bool.and_eq_true, Bool.not_eq_true']
      constructor
      · rintro ⟨hab, ht⟩
        refine ⟨?_, noDoubleUS_iff_chain'.mp ht⟩
        rintro ⟨ha, hb⟩
        rw [ha, hb] at hab
        simp at hab
      · rintro ⟨hab, ht⟩
        refine ⟨?_, noDoubleUS_iff_chain'.mpr ht⟩
        by_cases ha : a = '_'
        · by_cases hb : b = '_'
          · exact absurd ⟨ha, hb⟩ hab
          · simp [hb]
        · simp [ha]

/-! ## Basic lemmas about the string primitives -/

theorem pre_head? {l₁ l₂ : List Char} (h : l₁ <+: l₂) (hne : l₁ ≠ []) :
    l₁.head? = l₂.head? := by
  obtain ⟨t, rfl⟩ := h
  cases l₁ with
  | nil => exact absurd rfl hne
  | cons a l => rfl

theorem head?_take_pos {l : List Char} {n : Nat} (h : 0 < n) :
    (l.take n).head? = l.head? := by
  cases n with
  | zero => exact absurd h (by simp)
  | succ m => cases l <;> rfl

theorem dropEnd_isPre (p : Char → Bool) (l : List Char) : dropEnd p l <+: l := by
  have h : l.reverse.dropWhile p <:+ l.reverse := List.dropWhile_suffix p
  rw [← List.reverse_prefix] at h
  simpa [dropEnd] using h

theorem mem_dropEnd {p : Char → Bool} {l : List Char} {c : Char}
    (h : c ∈ dropEnd p l) : c ∈ l :=
  (dropEnd_isPre p l).subset h

theorem mem_stripBoth {p : Char → Bool} {l : List Char} {c : Char}
    (h : c ∈ stripBoth p l) : c ∈ l :=
  (List.dropWhile_suffix p).subset (mem_dropEnd h)

theorem head?_stripBoth_not {p : Char → Bool} {l : List Char} {c : Char}
    (h : (stripBoth p l).head? = some c) : p c = false := by
  have hne : stripBoth p l ≠ [] := by intro hnil; rw [hnil] at h; exact (by simp at h)
  have h2 : (l.dropWhile p).head? = some c := by
    rw [← pre_head? (dropEnd_isPre p (l.dropWhile p)) hne]; exact h
  have h3 : l.dropWhile p ≠ [] := by intro hnil; rw [hnil] at h2; exact (by simp at h2)
  have := List.head_dropWhile_not p l (by simpa [List.isEmpty_iff] using h3)
  rw [List.head?_eq_head h3] at h2
  simpa [← Option.some_inj.mp h2] using this

theorem getLast?_dropEnd_not {p : Char → Bool} {l : List Char} {c : Char}
    (h : (dropEnd p l).getLast? = some c) : p c = false := by
  rw [← List.head?_reverse, dropEnd, List.reverse_reverse] at h
  have h3 : l.reverse.dropWhile p ≠ [] := by intro hnil; rw [hnil] at h; exact (by simp at h)
  have := List.head_dropWhile_not p l.reverse (by simpa [List.isEmpty_iff] using h3)
  rw [List.head?_eq_head h3] at h
  simpa [← Option.some_inj.mp h] using this

theorem getLast?_stripBoth_not {p : Char → Bool} {l : List Char} {c : Char}
    (h : (stripBoth p l).getLast? = some c) : p c = false :=
  getLast?_dropEnd_not h

theorem dropWhile_eq_self_of_head {p : Char → Bool} {l : List Char}
    (h : ∀ c, l.head? = some c → p c = false) : l.dropWhile p = l := by
  cases l with
  | nil => rfl
  | cons a t => simp [List.dropWhile_cons, h a rfl]

theorem dropEnd_eq_self_of_getLast {p : Char → Bool} {l : List Char}
    (h : ∀ c, l.getLast? = some c → p c = false) : dropEnd p l = l := by
  have : l.reverse.dropWhile p = l.reverse := by
    apply dropWhile_eq_self_of_head
    intro c hc
    exact h c (by simpa using hc)
  simp [dropEnd, this]

theorem stripBoth_eq_self {p : Char → Bool} {l : List Char}
    (hh : ∀ c, l.head? = some c → p c = false)
    (hl : ∀ c, l.getLast? = some c → p c = false) : stripBoth p l = l := by
  rw [stripBoth, dropWhile_eq_self_of_head hh, dropEnd_eq_self_of_getLast hl]

theorem stripBoth_eq_self_of_all {p : Char → Bool} {l : List Char}
    (h : ∀ c ∈ l, p c = false) : stripBoth p l = l := by
  apply stripBoth_eq_self
  · intro c hc; exact h c (by cases l with | nil => simp at hc | cons a t =>
      simp at hc; simp [hc])
  · intro c hc; exact h c (List.mem_of_getLast?_eq_some hc)

/-! ## Lemmas about `collapseU` -/

theorem mem_collapseU {c : Char} : ∀ {l : List Char}, c ∈ collapseU l → c ∈ l
  | [], h => by rw [collapseU] at h; exact h
  | [a], h => by rw [collapseU] at h; exact h
  | a :: b :: t, h => by
      rw [collapseU] at h
      by_cases hab : a = '_' ∧ b = '_'
      · rw [if_pos hab] at h
        exact List.mem_cons_of_mem a (mem_collapseU h)
      · rw [if_neg hab] at h
        rcases List.mem_cons.mp h with h1 | h2
        · simp [h1]
        · exact List.mem_cons_of_mem a (mem_collapseU h2)

theorem collapseU_ne_nil : ∀ {l : List Char}, l ≠ [] → collapseU l ≠ []
  | [], h => absurd rfl h
  | [a], _ => by simp [collapseU]
  | a :: b :: t, _ => by
      rw [collapseU]
      by_cases hab : a = '_' ∧ b = '_'
      · rw [if_pos hab]; exact collapseU_ne_nil (by simp)
      · rw [if_neg hab]; simp

theorem head?_collapseU_cons {b : Char} {t : List Char} (h : b ≠ '_') :
    (collapseU (b :: t)).head? = some b := by
  cases t with
  | nil => rfl
  | cons c t' =>
      rw [collapseU, if_neg (by intro hc; exact h hc.1)]
      rfl

theorem noDoubleUS_collapseU : ∀ (l : List Char), NoDoubleUS (collapseU l)
  | [] => by simp [collapseU, NoDoubleUS, noDDb]
  | [a] => by simp [collapseU, NoDoubleUS, noDDb]
  | a :: b :: t => by
      rw [noDoubleUS_iff_chain', collapseU]
      by_cases hab : a = '_' ∧ b = '_'
      · rw [if_pos hab]
        exact noDoubleUS_iff_chain'.mp (noDoubleUS_collapseU (b :: t))
      · rw [if_neg hab]
        rw [List.chain'_cons']
        refine ⟨?_, noDoubleUS_iff_chain'.mp (noDoubleUS_collapseU (b :: t))⟩
        intro y hy
        by_cases ha : a = '_'
        · have hb : b ≠ '_' := fun hb => hab ⟨ha, hb⟩
          rw [head?_collapseU_cons hb] at hy
          have hyb : y = b := by simpa using hy.symm
          subst hyb
          intro hcon; exact hb hcon.2
        · intro hcon; exact ha hcon.1

theorem collapseU_eq_self : ∀ {l : List Char}, NoDoubleUS l → collapseU l = l
  | [], _ => rfl
  | [a], _ => rfl
  | a :: b :: t, h => by
      rw [noDoubleUS_iff_chain', List.chain'_cons] at h
      rw [collapseU, if_neg h.1,
        collapseU_eq_self (noDoubleUS_iff_chain'.mpr h.2)]

/-! ## Preservation of `NoDoubleUS` -/

theorem NoDoubleUS.chain {l : List Char} (h : NoDoubleUS l) :
    l.Chain' (fun a b => ¬(a = '_' ∧ b = '_')) :=
  noDoubleUS_iff_chain'.mp h

theorem NoDoubleUS.reverse {l : List Char} (h : NoDoubleUS l) : NoDoubleUS l.reverse := by
  rw [noDoubleUS_iff_chain', List.chain'_reverse]
  exact h.chain.imp (fun a b hab hc => hab ⟨hc.2, hc.1⟩)

theorem NoDoubleUS.dropWhile {p : Char → Bool} {l : List Char} (h : NoDoubleUS l) :
    NoDoubleUS (l.dropWhile p) :=
  noDoubleUS_iff_chain'.mpr (List.Chain'.suffix h.chain (List.dropWhile_suffix p))

theorem NoDoubleUS.dropEnd {p : Char → Bool} {l : List Char} (h : NoDoubleUS l) :
    NoDoubleUS (Forcepoint.dropEnd p l) :=
  noDoubleUS_iff_chain'.mpr ( List.Chain'.prefix h.chain (dropEnd_isPre p l))

theorem NoDoubleUS.stripBoth {p : Char → Bool} {l : List Char} (h : NoDoubleUS l) :
    NoDoubleUS (Forcepoint.stripBoth p l) :=
  h.dropWhile.dropEnd

theorem NoDoubleUS.take {l : List Char} (h : NoDoubleUS l) (n : Nat) :
    NoDoubleUS (l.take n) :=
  noDoubleUS_iff_chain'.mpr ( List.Chain'.prefix h.chain (List.take_prefix n l))

/-! ## Grammar properties of `sanitize_core` at the FortiGate limit 79 -/

theorem subIllegal_legal {l : List Char} {c : Char} (h : c ∈ subIllegal l) :
    isLegalB c = true := by
  rw [subIllegal, List.mem_map] at h
  obtain ⟨x, _, hx⟩ := h
  by_cases hleg : isLegalB x = true
  · rw [← hx, if_pos hleg]; exact hleg
  · rw [← hx, if_neg hleg]; decide

theorem sanitize_core_ne_nil (l : List Char) : sanitize_core l 79 ≠ [] := by
  rw [sanitize_core]
  split
  · decide
  · rename_i hnil
    intro hc
    rcases List.take_eq_nil_iff.mp hc with h | h
    · exact absurd h (by decide)
    · exact hnil h

theorem sanitize_core_length (l : List Char) : (sanitize_core l 79).length ≤ 79 := by
  rw [sanitize_core]
  exact le_trans (List.length_take_le 79 _) (le_refl 79)

theorem sanitize_core_legal {l : List Char} {c : Char} (h : c ∈ sanitize_core l 79) :
    isLegalB c = true := by
  rw [sanitize_core] at h
  have h1 := List.take_subset _ _ h
  by_cases hnil : dropEnd (fun c => c == '.')
      (stripBoth (fun c => c == '_') (collapseU (subIllegal (pyStrip l)))) = []
  · rw [if_pos hnil] at h1
    have h2 : c = 'o' ∨ c = 'b' ∨ c = 'j' := by simpa using h1
    rcases h2 with h | h | h <;> (subst h; decide)
  · rw [if_neg hnil] at h1
    exact subIllegal_legal (mem_collapseU (mem_stripBoth (mem_dropEnd h1)))

theorem sanitize_core_noDD (l : List Char) : NoDoubleUS (sanitize_core l 79) := by
  rw [sanitize_core]
  apply NoDoubleUS.take
  split
  · decide
  · exact (((noDoubleUS_collapseU _).stripBoth).dropEnd)

theorem sanitize_core_head (l : List Char) :
    (sanitize_core l 79).head? ≠ some '_' := by
  rw [sanitize_core]
  rw [head?_take_pos (by norm_num)]
  split
  · decide
  · rename_i hnil
    intro hc
    have hh : (stripBoth (fun c => c == '_') (collapseU (subIllegal (pyStrip l)))).head?
        = some '_' := by
      rw [← pre_head? (dropEnd_isPre _ _) hnil]; exact hc
    have := head?_stripBoth_not hh
    simp at this

/-! ## The fixed-point lemma for the sanitizer -/

theorem legal_not_space {c : Char} (h : isLegalB c = true) : isSpaceB c = false := by
  by_contra hc
  have hs : isSpaceB c = true := by
    cases hb : isSpaceB c
    · exact absurd hb hc
    · rfl
  rw [isSpaceB] at hs
  simp only [Bool.or_eq_true, beq_iff_eq] at hs
  rcases hs with ((((h1 | h1) | h1) | h1) | h1) | h1 <;> (subst h1; revert h; decide)

theorem map_eq_self_of_mem {f : Char → Char} {l : List Char}
    (h : ∀ c ∈ l, f c = c) : l.map f = l := by
  rw [List.map_congr_left h]; simp

theorem sanitize_core_fixed {l : List Char}
    (hleg : ∀ c ∈ l, isLegalB c = true)
    (hnd : NoDoubleUS l)
    (hhead : l.head? ≠ some '_')
    (hlast_us : l.getLast? ≠ some '_')
    (hlast_dot : l.getLast? ≠ some '.')
    (hne : l ≠ [])
    (hlen : l.length ≤ 79) :
    sanitize_core l 79 = l := by
  have h1 : pyStrip l = l :=
    stripBoth_eq_self_of_all (fun c hc => legal_not_space (hleg c hc))
  have h2 : subIllegal l = l :=
    map_eq_self_of_mem (fun c hc => if_pos (hleg c hc))
  have h3 : collapseU l = l := collapseU_eq_self hnd
  have h4 : stripBoth (fun c => c == '_') l = l := by
    apply stripBoth_eq_self
    · intro c hc
      simp only [beq_eq_false_iff_ne, ne_eq]
      intro hcu; subst hcu; exact hhead hc
    · intro c hc
      simp only [beq_eq_false_iff_ne, ne_eq]
      intro hcu; subst hcu; exact hlast_us hc
  have h5 : dropEnd (fun c => c == '.') l = l := by
    apply dropEnd_eq_self_of_getLast
    intro c hc
    simp only [beq_eq_false_iff_ne, ne_eq]
    intro hcu; subst hcu; exact hlast_dot hc
  rw [sanitize_core, h1, h2, h3, h4, h5, if_neg hne, List.take_of_length_le hlen]

/-! ## Claim C1 -/

/-- **C1 — counterexample.** As stated, the claim is false: the sanitized output
can end with an underscore (stripping trailing periods happens after stripping
underscores and can expose one), and, for long inputs, truncation to 79
characters can cut directly after a period, leaving a trailing period. -/
theorem sanitize_grammar_cex :
    (sanitize_name "a_.").data.getLast? = some '_' ∧
    (sanitize_name (String.mk (List.replicate 78 'a' ++ ['.', 'b']))).data.getLast?
      = some '.' := by
  constructor
  · decide
  · decide

/-- **C1 (amended).** For every input string `x`, `sanitize_name x` is non-empty
(the placeholder `obj` is substituted when sanitization would yield an empty
string), has length at most 79, consists only of alphanumerics, hyphen,
underscore, and period, has consecutive illegal characters collapsed into a
single underscore (no two adjacent underscores remain), and does not begin with
an underscore. (It can, however, end with an underscore or with a period; see
the counterexample.) -/
theorem sanitize_grammar (x : String) :
    sanitize_name x ≠ "" ∧
    (sanitize_name x).length ≤ 79 ∧
    (∀ c ∈ (sanitize_name x).data, isLegalB c = true) ∧
    NoDoubleUS (sanitize_name x).data ∧
    (sanitize_name x).data.head? ≠ some '_' := by
  have hy := sanitize_name_data x
  refine ⟨?_, ?_, ?_, ?_, ?_⟩
  · intro hc
    have hd : (sanitize_name x).data = [] := by rw [hc]
    rw [hy] at hd
    exact sanitize_core_ne_nil x.data hd
  · rw [length_data, hy]
    exact sanitize_core_length x.data
  · rw [hy]
    intro c hc; exact sanitize_core_legal hc
  · rw [hy]
    exact sanitize_core_noDD x.data
  · rw [hy]
    exact sanitize_core_head x.data

/-! ## Claim C2 -/

/-- **C2 — counterexample.** Sanitization is not idempotent: for the input
`"a_."`, the first pass yields `"a_"` (the trailing period is stripped after
the underscore strip, exposing a trailing underscore), and a second pass
strips that underscore, yielding `"a"`. -/
theorem sanitize_idem_cex :
    sanitize_name (sanitize_name "a_.") ≠ sanitize_name "a_." := by decide

/-- **C2 (amended).** Sanitization is idempotent on every input whose sanitized
form does not end with an underscore or a period:
`sanitize_name (sanitize_name x) = sanitize_name x` whenever
`sanitize_name x` does not end in `'_'` or `'.'`. -/
theorem sanitize_idem (x : String)
    (h1 : (sanitize_name x).data.getLast? ≠ some '_')
    (h2 : (sanitize_name x).data.getLast? ≠ some '.') :
    sanitize_name (sanitize_name x) = sanitize_name x := by
  have hy := sanitize_name_data x
  rw [hy] at h1 h2
  have hfix : sanitize_core (sanitize_name x).data 79 = (sanitize_name x).data := by
    rw [hy]
    apply sanitize_core_fixed
    · intro c hc; exact sanitize_core_legal hc
    · exact sanitize_core_noDD x.data
    · exact sanitize_core_head x.data
    · exact h1
    · exact h2
    · intro hc; exact sanitize_core_ne_nil x.data hc
    · exact sanitize_core_length x.data
  rw [sanitize_name_def (sanitize_name x), hfix]

/-- **C2 — witness.** A concrete instantiation of the amended idempotence
theorem at the input `"abc"`. -/
theorem sanitize_idem_witness :
    sanitize_name (sanitize_name "abc") = sanitize_name "abc" :=
  sanitize_idem "abc" (by decide) (by decide)

theorem dedupFirstAux_not_seen {a : String} :
    ∀ {seen l : List String}, a ∈ dedupFirstAux seen l → a ∉ seen
  | _, [], h => by rw [dedupFirstAux] at h; exact absurd h (List.not_mem_nil a)
  | seen, m :: ms, h => by
      rw [dedupFirstAux] at h
      split at h
      · exact dedupFirstAux_not_seen h
      · rcases List.mem_cons.mp h with rfl | h2
        · assumption
        · have h3 := dedupFirstAux_not_seen h2
          intro hc; exact h3 (List.mem_cons_of_mem _ hc)

theorem dedupFirstAux_nodup : ∀ (seen l : List String), (dedupFirstAux seen l).Nodup
  | _, [] => List.nodup_nil
  | seen, m :: ms => by
      rw [dedupFirstAux]
      split
      · exact dedupFirstAux_nodup seen ms
      · refine List.nodup_cons.mpr ⟨?_, dedupFirstAux_nodup (m :: seen) ms⟩
        intro hc
        exact dedupFirstAux_not_seen hc (List.mem_cons_self m seen)

theorem dedupFirstAux_sublist : ∀ (seen l : List String), List.Sublist (dedupFirstAux seen l) l
  | _, [] => List.Sublist.refl []
  | seen, m :: ms => by
      rw [dedupFirstAux]
      split
      · exact (dedupFirstAux_sublist seen ms).cons m
      · exact (dedupFirstAux_sublist (m :: seen) ms).cons₂ m

theorem mem_dedupFirstAux {a : String} :
    ∀ {seen l : List String}, a ∈ dedupFirstAux seen l ↔ (a ∈ l ∧ a ∉ seen)
  | seen, [] => by rw [dedupFirstAux]; simp
  | seen, m :: ms => by
      rw [dedupFirstAux]
      split
      · rename_i hm
        rw [mem_dedupFirstAux]
        constructor
        · rintro ⟨h1, h2⟩; exact ⟨List.mem_cons_of_mem _ h1, h2⟩
        · rintro ⟨h1, h2⟩
          rcases List.mem_cons.mp h1 with rfl | h3
          · exact absurd hm h2
          · exact ⟨h3, h2⟩
      · rename_i hm
        constructor
        · intro h
          rcases List.mem_cons.mp h with rfl | h2
          · exact ⟨List.mem_cons_self _ _, hm⟩
          · have h3 := mem_dedupFirstAux.mp h2
            refine ⟨List.mem_cons_of_mem _ h3.1, ?_⟩
            intro hc; exact h3.2 (List.mem_cons_of_mem _ hc)
        · rintro ⟨h1, h2⟩
          rcases List.mem_cons.mp h1 with rfl | h3
          · exact List.mem_cons_self _ _
          · by_cases ham : a = m
            · subst ham; exact List.mem_cons_self _ _
            · apply List.mem_cons_of_mem
              apply mem_dedupFirstAux.mpr
              refine ⟨h3, ?_⟩
              intro hc
              rcases List.mem_cons.mp hc with h4 | h4
              · exact ham h4
              · exact h2 h4

theorem mem_dedupFirst {a : String} {l : List String} :
    a ∈ dedupFirst l ↔ a ∈ l := by
  rw [dedupFirst, mem_dedupFirstAux]
  simp

theorem dedupFirst_eq_nil {l : List String} : dedupFirst l = [] ↔ l = [] := by
  constructor
  · intro h
    cases l with
    | nil => rfl
    | cons m ms =>
        have hm : m ∈ dedupFirst (m :: ms) := mem_dedupFirst.mpr (List.mem_cons_self m ms)
        rw [h] at hm
        exact absurd hm (List.not_mem_nil m)
  · intro h; rw [h]; rfl

theorem dedupFirstAux_congr :
    ∀ {s1 s2 : List String} (l : List String), (∀ x, x ∈ s1 ↔ x ∈ s2) →
      dedupFirstAux s1 l = dedupFirstAux s2 l
  | _, _, [], _ => rfl
  | s1, s2, m :: ms, h => by
      rw [dedupFirstAux, dedupFirstAux]
      by_cases hm : m ∈ s1
      · rw [if_pos hm, if_pos ((h m).mp hm)]
        exact dedupFirstAux_congr ms h
      · rw [if_neg hm, if_neg (fun hc => hm ((h m).mpr hc))]
        rw [dedupFirstAux_congr ms (fun x => ?_)]
        constructor
        · intro hx
          rcases List.mem_cons.mp hx with rfl | hx2
          · exact List.mem_cons_self _ _
          · exact List.mem_cons_of_mem _ ((h x).mp hx2)
        · intro hx
          rcases List.mem_cons.mp hx with rfl | hx2
          · exact List.mem_cons_self _ _
          · exact List.mem_cons_of_mem _ ((h x).mpr hx2)

theorem dedupFirstAux_cons_filter {a : String} :
    ∀ {seen : List String} (l : List String),
      dedupFirstAux (a :: seen) l = dedupFirstAux seen (l.filter (fun b => b != a))
  | _, [] => rfl
  | seen, m :: ms => by
      rw [dedupFirstAux, List.filter_cons]
      by_cases hma : m = a
      · subst hma
        rw [if_pos (List.mem_cons_self m seen)]
        have hb : (m != m) = false := by simp
        rw [hb]
        simp only [Bool.false_eq_true, if_false]
        exact dedupFirstAux_cons_filter ms
      · have hb : (m != a) = true := by simp [hma]
        rw [hb]
        simp only [if_true]
        rw [dedupFirstAux]
        by_cases hm : m ∈ seen
        · rw [if_pos (List.mem_cons_of_mem _ hm), if_pos hm]
          exact dedupFirstAux_cons_filter ms
        · have hmas : m ∉ a :: seen := by
            intro hc
            rcases List.mem_cons.mp hc with h4 | h4
            · exact hma h4
            · exact hm h4
          rw [if_neg hmas, if_neg hm]
          rw [dedupFirstAux_congr ms (fun x => ?_), dedupFirstAux_cons_filter ms]
          constructor
          · intro hx
            rcases List.mem_cons.mp hx with rfl | hx2
            · exact List.mem_cons_of_mem _ (List.mem_cons_self _ _)
            · rcases List.mem_cons.mp hx2 with rfl | hx3
              · exact List.mem_cons_self _ _
              · exact List.mem_cons_of_mem _ (List.mem_cons_of_mem _ hx3)
          · intro hx
            rcases List.mem_cons.mp hx with rfl | hx2
            · exact List.mem_cons_of_mem _ (List.mem_cons_self _ _)
            · rcases List.mem_cons.mp hx2 with rfl | hx3
              · exact List.mem_cons_self _ _
              · exact List.mem_cons_of_mem _ (List.mem_cons_of_mem _ hx3)

theorem dedupFirst_cons_eq (a : String) (l : List String) :
    dedupFirst (a :: l) = a :: dedupFirst (l.filter (fun b => b != a)) := by
  rw [dedupFirst, dedupFirstAux, if_neg (List.not_mem_nil a), dedupFirst]
  rw [dedupFirstAux_cons_filter l]

/-! ## Claim C7 -/

/-! ## Registry and resolver lemmas -/

theorem mem_xml_names {root el : Element} {t n : String}
    (ht : t ∈ xml_object_tags) (hel : el ∈ iterTag root t)
    (hn : elName el = some n) : n ∈ xml_names root := by
  rw [xml_names, List.mem_flatMap]
  exact ⟨t, ht, List.mem_filterMap.mpr ⟨el, hel, hn⟩⟩

theorem nameMapGet_of_mem {root : Element} {orig : String}
    (h : orig ∈ xml_names root) : nameMapGet root orig = sanitize_name orig := by
  rw [nameMapGet]
  by_cases hs : sanitize_name orig = orig
  · rw [if_neg (fun hc => hc.2 hs)]
    exact hs.symm
  · rw [if_pos ⟨h, hs⟩]

theorem elName_eq_some {el : Element} {n : String}
    (h1 : n = pyStripS (getAttr el "name" "")) (h2 : n ≠ "") :
    elName el = some n := by
  simp only [elName]
  rw [← h1, if_neg h2]

theorem stripBoth_idem (p : Char → Bool) (l : List Char) :
    stripBoth p (stripBoth p l) = stripBoth p l :=
  stripBoth_eq_self (fun _ hc => head?_stripBoth_not hc)
    (fun _ hc => getLast?_stripBoth_not hc)

theorem pyStripS_idem (s : String) : pyStripS (pyStripS s) = pyStripS s := by
  rw [pyStripS, pyStripS, data_mk, pyStrip, pyStrip, stripBoth_idem]

/-! ## Claim C3 -/

/-- **C3.** Reference resolution follows the three-step decision order: a
reference equal to an original name collected by the pre-population pass
resolves to that name's canonical (sanitized) form; otherwise a key of the
static built-in table resolves to the mapped FortiGate built-in name;
otherwise the reference is unresolved. In particular, the scenario group
referencing `WebSrv` (a local host), `DNS (TCP)` (a built-in-table key mapped
to `DNS`), and `GhostObj` (neither) yields members `[WebSrv, DNS]` and
`skipped_refs = [GhostObj]`. -/
theorem resolve_decision_order :
    (∀ (root : Element) (ref : String), ref ∈ xml_names root →
      resolve root ref = some (nameMapGet root ref)) ∧
    (∀ (root : Element) (ref v : String), ref ∉ xml_names root →
      BUILTIN_MAP.lookup ref = some v → resolve root ref = some v) ∧
    (∀ (root : Element) (ref : String), ref ∉ xml_names root →
      BUILTIN_MAP.lookup ref = none → resolve root ref = none) ∧
    (extract_objects scenarioRoot).net_groups =
      [{ orig_name := "Grp1", name := "Grp1", member := ["WebSrv", "DNS"],
         skipped_refs := ["GhostObj"] }] := by
  refine ⟨?_, ?_, ?_, by decide⟩
  · intro root ref h
    rw [resolve, if_pos h]
  · intro root ref v h hb
    rw [resolve, if_neg h, hb]
  · intro root ref h hb
    rw [resolve, if_neg h, hb]

/-- **C3 — witness.** The decision order instantiated on the scenario
document: the local name, a built-in key, and an unknown name. -/
theorem resolve_decision_order_witness :
    resolve scenarioRoot "WebSrv" = some (nameMapGet scenarioRoot "WebSrv") ∧
    resolve scenarioRoot "DNS (TCP)" = some "DNS" ∧
    resolve scenarioRoot "GhostObj" = none :=
  ⟨resolve_decision_order.1 scenarioRoot "WebSrv" (by decide),
   resolve_decision_order.2.1 scenarioRoot "DNS (TCP)" "DNS" (by decide) (by decide),
   resolve_decision_order.2.2.1 scenarioRoot "GhostObj" (by decide) (by decide)⟩

/-! ## Claim C10 -/

/-- **C10.** For every TCP or UDP service element whose stripped minimum
destination port is non-empty and which has no maximum destination port
attribute, the maximum defaults to the minimum and the emitted record's port
range is exactly the single minimum port string. -/
theorem service_port_default (root el : Element) (proto : String)
    (hmin : pyStripS (getAttr el "min_dst_port" "") ≠ "")
    (hmax : el.attrib.lookup "max_dst_port" = none) :
    (serviceOf root proto el).map ServiceRec.portrange
      = some (pyStripS (getAttr el "min_dst_port" "")) := by
  simp only [getAttr] at hmin ⊢
  simp only [serviceOf, getAttr, hmax]
  rw [pyStripS_idem, if_neg hmin, if_neg (fun hc => hc.2 rfl)]
  rfl

/-- **C10 — witness.** A concrete TCP service element with `min_dst_port`
`8080` and no `max_dst_port` yields port range `8080`. -/
theorem service_port_default_witness :
    (serviceOf scenarioRoot "TCP"
        (.mk "service_tcp" [("name", "Web"), ("min_dst_port", "8080")] none
          (elemList []))).map ServiceRec.portrange = some "8080" := by
  have h := service_port_default scenarioRoot
    (.mk "service_tcp" [("name", "Web"), ("min_dst_port", "8080")] none (elemList []))
    "TCP" (by decide) (by decide)
  rw [h]
  decide

theorem nameOK_sanitize (x : String) : nameOK (sanitize_name x) := by
  have hy := sanitize_name_data x
  refine ⟨?_, ?_, ?_⟩
  · intro hc
    have hd : (sanitize_name x).data = [] := by rw [hc]
    rw [hy] at hd
    exact sanitize_core_ne_nil x.data hd
  · rw [length_data, hy]
    exact sanitize_core_length x.data
  · rw [hy]
    intro c hc
    exact sanitize_core_legal hc

theorem hostOf_name {root el : Element} {r : AddrRec} (h : hostOf root el = some r) :
    r.orig_name = pyStripS (getAttr el "name" "") ∧
    r.name = nameMapGet root (pyStripS (getAttr el "name" "")) := by
  simp only [hostOf] at h
  repeat' split at h
  all_goals first
    | (rw [← Option.some_inj.mp h]; exact ⟨rfl, rfl⟩)
    | exact absurd h (by simp)

theorem networkOf_name {root el : Element} {r : AddrRec} (h : networkOf root el = some r) :
    r.orig_name = pyStripS (getAttr el "name" "") ∧
    r.name = nameMapGet root (pyStripS (getAttr el "name" "")) := by
  simp only [networkOf] at h
  repeat' split at h
  all_goals first
    | (rw [← Option.some_inj.mp h]; exact ⟨rfl, rfl⟩)
    | exact absurd h (by simp)

theorem rangeOf_name {root el : Element} {r : RangeRec} (h : rangeOf root el = some r) :
    r.orig_name = pyStripS (getAttr el "name" "") ∧
    r.name = nameMapGet root (pyStripS (getAttr el "name" "")) := by
  simp only [rangeOf] at h
  repeat' split at h
  all_goals first
    | (rw [← Option.some_inj.mp h]; exact ⟨rfl, rfl⟩)
    | exact absurd h (by simp)

theorem groupOf_name {root el : Element} {mt : String} {r : GroupRec}
    (h : groupOf root mt el = some r) :
    r.orig_name = pyStripS (getAttr el "name" "") ∧
    r.name = nameMapGet root (pyStripS (getAttr el "name" "")) := by
  simp only [groupOf] at h
  repeat' split at h
  all_goals first
    | (rw [← Option.some_inj.mp h]; exact ⟨rfl, rfl⟩)
    | exact absurd h (by simp)

theorem serviceOf_name {root el : Element} {proto : String} {r : ServiceRec}
    (h : serviceOf root proto el = some r) :
    r.orig_name = pyStripS (getAttr el "name" "") ∧
    r.name = nameMapGet root (pyStripS (getAttr el "name" "")) := by
  simp only [serviceOf] at h
  repeat' split at h
  all_goals first
    | (rw [← Option.some_inj.mp h]; exact ⟨rfl, rfl⟩)
    | exact absurd h (by simp)

theorem nameOK_of_record {root el : Element} (t : String) {orig nm : String}
    (ht : t ∈ xml_object_tags) (hel : el ∈ iterTag root t)
    (horig : orig = pyStripS (getAttr el "name" ""))
    (hnm : nm = nameMapGet root orig) (hne : orig ≠ "") : nameOK nm := by
  have hmem : orig ∈ xml_names root :=
    mem_xml_names ht hel (elName_eq_some horig hne)
  rw [hnm, nameMapGet_of_mem hmem]
  exact nameOK_sanitize orig

theorem extract_objects_hosts (root : Element) :
    (extract_objects root).hosts = (iterTag root "host").filterMap (hostOf root) := rfl

theorem extract_objects_networks (root : Element) :
    (extract_objects root).networks
      = (iterTag root "network").filterMap (networkOf root) := rfl

theorem extract_objects_ranges (root : Element) :
    (extract_objects root).addr_ranges
      = (iterTag root "address_range").filterMap (rangeOf root) := rfl

theorem extract_objects_net_groups (root : Element) :
    (extract_objects root).net_groups
      = (iterTag root "group").filterMap (groupOf root "ne_list") := rfl

theorem extract_objects_services (root : Element) :
    (extract_objects root).services
      = (iterTag root "service_tcp").filterMap (serviceOf root "TCP")
        ++ (iterTag root "service_udp").filterMap (serviceOf root "UDP") := rfl

theorem extract_objects_service_groups (root : Element) :
    (extract_objects root).service_groups
      = (iterTag root "gen_service_group").filterMap (groupOf root "service_ref") := rfl

/-- **C4 — counterexample.** As stated, the claim fails: a host element whose
`name` attribute is missing (or empty) passes the address gate and is emitted
with `name = ""`, violating non-emptiness. -/
theorem record_names_cex :
    ∃ r ∈ (extract_objects unnamedHostRoot).hosts, r.name = "" := by decide

/-- **C4 (amended).** Every ObjectRecord emitted by the extractor whose source
element carried a non-empty (stripped) `name` attribute — equivalently, whose
`orig_name` field is non-empty — has a `name` that is non-empty, of length at
most 79, and composed only of the restricted character set. (Elements with a
missing or empty `name` attribute are still emitted, with an empty `name`; see
the counterexample.) -/
theorem record_names_grammar (root : Element) :
    (∀ r ∈ (extract_objects root).hosts, r.orig_name ≠ "" → nameOK r.name) ∧
    (∀ r ∈ (extract_objects root).networks, r.orig_name ≠ "" → nameOK r.name) ∧
    (∀ r ∈ (extract_objects root).addr_ranges, r.orig_name ≠ "" → nameOK r.name) ∧
    (∀ r ∈ (extract_objects root).net_groups, r.orig_name ≠ "" → nameOK r.name) ∧
    (∀ r ∈ (extract_objects root).services, r.orig_name ≠ "" → nameOK r.name) ∧
    (∀ r ∈ (extract_objects root).service_groups, r.orig_name ≠ "" → nameOK r.name) := by
  refine ⟨?_, ?_, ?_, ?_, ?_, ?_⟩
  · intro r hr hne
    rw [extract_objects_hosts] at hr
    obtain ⟨el, hel, hsome⟩ := List.mem_filterMap.mp hr
    obtain ⟨ho, hn⟩ := hostOf_name hsome
    rw [← ho] at hn
    exact nameOK_of_record "host" (by decide) hel ho hn hne
  · intro r hr hne
    rw [extract_objects_networks] at hr
    obtain ⟨el, hel, hsome⟩ := List.mem_filterMap.mp hr
    obtain ⟨ho, hn⟩ := networkOf_name hsome
    rw [← ho] at hn
    exact nameOK_of_record "network" (by decide) hel ho hn hne
  · intro r hr hne
    rw [extract_objects_ranges] at hr
    obtain ⟨el, hel, hsome⟩ := List.mem_filterMap.mp hr
    obtain ⟨ho, hn⟩ := rangeOf_name hsome
    rw [← ho] at hn
    exact nameOK_of_record "address_range" (by decide) hel ho hn hne
  · intro r hr hne
    rw [extract_objects_net_groups] at hr
    obtain ⟨el, hel, hsome⟩ := List.mem_filterMap.mp hr
    obtain ⟨ho, hn⟩ := groupOf_name hsome
    rw [← ho] at hn
    exact nameOK_of_record "group" (by decide) hel ho hn hne
  · intro r hr hne
    rw [extract_objects_services] at hr
    rcases List.mem_append.mp hr with hr2 | hr2
    · obtain ⟨el, hel, hsome⟩ := List.mem_filterMap.mp hr2
      obtain ⟨ho, hn⟩ := serviceOf_name hsome
      rw [← ho] at hn
      exact nameOK_of_record "service_tcp" (by decide) hel ho hn hne
    · obtain ⟨el, hel, hsome⟩ := List.mem_filterMap.mp hr2
      obtain ⟨ho, hn⟩ := serviceOf_name hsome
      rw [← ho] at hn
      exact nameOK_of_record "service_udp" (by decide) hel ho hn hne
  · intro r hr hne
    rw [extract_objects_service_groups] at hr
    obtain ⟨el, hel, hsome⟩ := List.mem_filterMap.mp hr
    obtain ⟨ho, hn⟩ := groupOf_name hsome
    rw [← ho] at hn
    exact nameOK_of_record "gen_service_group" (by decide) hel ho hn hne

/-- **C4 — witness.** On a document populating all six categories with named
elements, every emitted record's name satisfies the grammar. -/
theorem record_names_grammar_witness :
    (∀ r ∈ (extract_objects fullRoot).hosts, nameOK r.name) ∧
    (∀ r ∈ (extract_objects fullRoot).networks, nameOK r.name) ∧
    (∀ r ∈ (extract_objects fullRoot).addr_ranges, nameOK r.name) ∧
    (∀ r ∈ (extract_objects fullRoot).net_groups, nameOK r.name) ∧
    (∀ r ∈ (extract_objects fullRoot).services, nameOK r.name) ∧
    (∀ r ∈ (extract_objects fullRoot).service_groups, nameOK r.name) := by
  have h1 : ∀ r ∈ (extract_objects fullRoot).hosts, r.orig_name ≠ "" := by decide
  have h2 : ∀ r ∈ (extract_objects fullRoot).networks, r.orig_name ≠ "" := by decide
  have h3 : ∀ r ∈ (extract_objects fullRoot).addr_ranges, r.orig_name ≠ "" := by decide
  have h4 : ∀ r ∈ (extract_objects fullRoot).net_groups, r.orig_name ≠ "" := by decide
  have h5 : ∀ r ∈ (extract_objects fullRoot).services, r.orig_name ≠ "" := by decide
  have h6 : ∀ r ∈ (extract_objects fullRoot).service_groups, r.orig_name ≠ "" := by decide
  have hmain := record_names_grammar fullRoot
  exact ⟨fun r hr => hmain.1 r hr (h1 r hr),
         fun r hr => hmain.2.1 r hr (h2 r hr),
         fun r hr => hmain.2.2.1 r hr (h3 r hr),
         fun r hr => hmain.2.2.2.1 r hr (h4 r hr),
         fun r hr => hmain.2.2.2.2.1 r hr (h5 r hr),
         fun r hr => hmain.2.2.2.2.2 r hr (h6 r hr)⟩

/-! ## Claim C5 helpers -/

theorem resolveRefs_fst (root : Element) :
    ∀ rs : List String, (resolveRefs root rs).1 = rs.filterMap (resolve root)
  | [] => rfl
  | r :: rs => by
      rw [resolveRefs, List.filterMap_cons]
      cases hres : resolve root r with
      | none => simp [resolveRefs_fst root rs]
      | some m => simp [resolveRefs_fst root rs]

theorem resolveRefs_snd (root : Element) :
    ∀ rs : List String,
      (resolveRefs root rs).2 = rs.filter (fun r => (resolve root r).isNone)
  | [] => rfl
  | r :: rs => by
      rw [resolveRefs, List.filter_cons]
      cases hres : resolve root r with
      | none => simp [hres, resolveRefs_snd root rs]
      | some m => simp [hres, resolveRefs_snd root rs]

theorem groupOf_isSome_iff (root : Element) (mt : String) (el : Element) :
    (groupOf root mt el).isSome ↔ ∃ r ∈ groupRefs mt el, resolve root r ≠ none := by
  simp only [groupOf]
  split
  · rename_i hm
    rw [dedupFirst_eq_nil, resolveRefs_fst, List.filterMap_eq_nil_iff] at hm
    simp only [Option.isSome_none, Bool.false_eq_true, false_iff]
    rintro ⟨r, hr, hres⟩
    exact hres (hm r hr)
  · rename_i hm
    simp only [Option.isSome_some, true_iff]
    by_contra hc
    push_neg at hc
    apply hm
    rw [dedupFirst_eq_nil, resolveRefs_fst, List.filterMap_eq_nil_iff]
    exact hc

theorem groupOf_skipped (root : Element) (mt : String) (el : Element) (g : GroupRec)
    (h : groupOf root mt el = some g) :
    g.skipped_refs = (groupRefs mt el).filter (fun r => (resolve root r).isNone) := by
  simp only [groupOf] at h
  repeat' split at h
  all_goals first
    | (rw [← Option.some_inj.mp h]; exact resolveRefs_snd root (groupRefs mt el))
    | exact absurd h (by simp)

/-! ## Claim C5 -/

/-- **C5.** For every group element (address group via `ne_list` references or
service group via `service_ref` references): a record is emitted if and only
if at least one of its member references resolves; unresolved references never
abort extraction (the embedding is total) and, when a record is emitted, its
`skipped_refs` are exactly the non-empty references that failed to resolve,
in order. The last two conjuncts tie the per-element constructor to the lists
emitted by `extract_objects`. -/
theorem group_emission (root el : Element) :
    ((groupOf root "ne_list" el).isSome ↔
      ∃ r ∈ groupRefs "ne_list" el, resolve root r ≠ none) ∧
    (∀ g, groupOf root "ne_list" el = some g →
      g.skipped_refs
        = (groupRefs "ne_list" el).filter (fun r => (resolve root r).isNone)) ∧
    ((groupOf root "service_ref" el).isSome ↔
      ∃ r ∈ groupRefs "service_ref" el, resolve root r ≠ none) ∧
    (∀ g, groupOf root "service_ref" el = some g →
      g.skipped_refs
        = (groupRefs "service_ref" el).filter (fun r => (resolve root r).isNone)) ∧
    (extract_objects root).net_groups
      = (iterTag root "group").filterMap (groupOf root "ne_list") ∧
    (extract_objects root).service_groups
      = (iterTag root "gen_service_group").filterMap (groupOf root "service_ref") :=
  ⟨groupOf_isSome_iff root "ne_list" el,
   fun g => groupOf_skipped root "ne_list" el g,
   groupOf_isSome_iff root "service_ref" el,
   fun g => groupOf_skipped root "service_ref" el g,
   rfl, rfl⟩

/-- **C5 — witness.** On the scenario group, emission holds because `WebSrv`
resolves, and the emitted record's `skipped_refs` is exactly the filter of
unresolved references, i.e. `["GhostObj"]`. -/
theorem group_emission_witness :
    (groupOf scenarioRoot "ne_list" scenarioGroup).isSome ∧
    ∃ g, groupOf scenarioRoot "ne_list" scenarioGroup = some g ∧
      g.skipped_refs = ["GhostObj"] := by
  refine ⟨?_, ?_⟩
  · exact (group_emission scenarioRoot scenarioGroup).1.mpr
      ⟨"WebSrv", by decide, by decide⟩
  · have hg : groupOf scenarioRoot "ne_list" scenarioGroup =
        some { orig_name := "Grp1", name := "Grp1", member := ["WebSrv", "DNS"],
               skipped_refs := ["GhostObj"] } := by decide
    refine ⟨_, hg, ?_⟩
    rw [(group_emission scenarioRoot scenarioGroup).2.1 _ hg]
    decide

/-! ## Push-step helper lemmas -/

theorem pushStep_empty {cat : PushCat} {ex : List String} {item : PushItem}
    {resp : UpsertResp} (h : pyStripS (item.name.getD "") = "") :
    pushStep cat ex item resp = ([Outcome.skip "" "" "Empty name"], none, ex) := by
  simp [pushStep, h]

theorem pushStep_call {cat : PushCat} {ex : List String} {item : PushItem}
    {resp : UpsertResp} (h : pyStripS (item.name.getD "") ≠ "") :
    (pushStep cat ex item resp).2.1
      = some (if pyStripS (item.name.getD "") ∈ ex
          then Call.put (pyStripS (item.name.getD ""))
          else Call.post (pyStripS (item.name.getD ""))) := by
  simp only [pushStep, if_neg h]
  rcases resp with e | ⟨code, txt⟩
  · rfl
  · by_cases hc : code = 200 ∨ code = 201 ∨ code = 204
    · simp only [if_pos hc]
    · simp only [if_neg hc]

theorem pushStep_ok_success {cat : PushCat} {ex : List String} {item : PushItem}
    {code : Nat} {txt : String} (h : pyStripS (item.name.getD "") ≠ "")
    (hcode : code = 200 ∨ code = 201 ∨ code = 204) :
    (pushStep cat ex item (Except.ok (code, txt))).1.getLast?
      = some (Outcome.ok (pyStripS (item.name.getD ""))
          (item.orig_name.getD (pyStripS (item.name.getD ""))) code) ∧
    (pushStep cat ex item (Except.ok (code, txt))).2.2
      = pyStripS (item.name.getD "") :: ex := by
  constructor
  · simp only [pushStep, if_neg h, if_pos hcode]
    simp [List.getLast?_append]
  · simp [pushStep, if_neg h, if_pos hcode]

theorem pushStep_err_code {cat : PushCat} {ex : List String} {item : PushItem}
    {code : Nat} {txt : String} (h : pyStripS (item.name.getD "") ≠ "")
    (hcode : ¬(code = 200 ∨ code = 201 ∨ code = 204)) :
    (pushStep cat ex item (Except.ok (code, txt))).1.getLast?
      = some (Outcome.err (pyStripS (item.name.getD ""))
          (item.orig_name.getD (pyStripS (item.name.getD "")))
          ("HTTP " ++ toString code ++ ": " ++ takeStr txt 150)) ∧
    (pushStep cat ex item (Except.ok (code, txt))).2.2 = ex := by
  constructor
  · simp only [pushStep, if_neg h, if_neg hcode]
    simp [List.getLast?_append]
  · simp [pushStep, if_neg h, if_neg hcode]

theorem pushStep_err_exn {cat : PushCat} {ex : List String} {item : PushItem}
    {e : String} (h : pyStripS (item.name.getD "") ≠ "") :
    (pushStep cat ex item (Except.error e)).1.getLast?
      = some (Outcome.err (pyStripS (item.name.getD ""))
          (item.orig_name.getD (pyStripS (item.name.getD "")))
          (takeStr e 150)) ∧
    (pushStep cat ex item (Except.error e)).2.2 = ex := by
  constructor
  · simp only [pushStep, if_neg h]
    simp [List.getLast?_append]
  · simp [pushStep, if_neg h]

theorem pushStep_existing_mono {cat : PushCat} {ex : List String} {item : PushItem}
    {resp : UpsertResp} {n : String} (h : n ∈ ex) :
    n ∈ (pushStep cat ex item resp).2.2 := by
  simp only [pushStep]
  split
  · exact h
  · rcases resp with e | ⟨code, txt⟩
    · exact h
    · dsimp only
      by_cases hc : code = 200 ∨ code = 201 ∨ code = 204
      · rw [if_pos hc]
        exact List.mem_cons_of_mem _ h
      · rw [if_neg hc]
        exact h

theorem pushStep_ok_mem {cat : PushCat} {ex : List String} {item : PushItem}
    (resp : UpsertResp) {n o : String} {code : Nat}
    (h : Outcome.ok n o code ∈ (pushStep cat ex item resp).1) :
    n = pyStripS (item.name.getD "") ∧ n ≠ "" ∧
    (pushStep cat ex item resp).2.2 = n :: ex := by
  by_cases hname : pyStripS (item.name.getD "") = ""
  · rw [pushStep_empty hname] at h
    simp at h
  · rcases resp with e | ⟨code2, txt⟩
    · simp only [pushStep, if_neg hname] at h
      rcases List.mem_append.mp h with hs | hl
      · exfalso
        by_cases hg : cat.isGroup = true
        · rw [if_pos hg] at hs
          simp at hs
        · rw [if_neg hg] at hs
          simp at hs
      · simp at hl
    · simp only [pushStep, if_neg hname] at h ⊢
      by_cases hc : code2 = 200 ∨ code2 = 201 ∨ code2 = 204
      · rw [if_pos hc] at h ⊢
        rcases List.mem_append.mp h with hs | hl
        · exfalso
          by_cases hg : cat.isGroup = true
          · rw [if_pos hg] at hs
            simp at hs
          · rw [if_neg hg] at hs
            simp at hs
        · simp only [List.mem_singleton, Outcome.ok.injEq] at hl
          obtain ⟨h1, h2, h3⟩ := hl
          subst h1
          exact ⟨rfl, hname, rfl⟩
      · rw [if_neg hc] at h
        rcases List.mem_append.mp h with hs | hl
        · exfalso
          by_cases hg : cat.isGroup = true
          · rw [if_pos hg] at hs
            simp at hs
          · rw [if_neg hg] at hs
            simp at hs
        · simp at hl

/-! ## Push-loop lemmas -/

theorem pushLoop_cons (cat : PushCat) (respond : Nat → UpsertResp) (i : Nat)
    (ex : List String) (item : PushItem) (rest : List PushItem) :
    pushLoop cat respond i ex (item :: rest)
      = ((pushStep cat ex item (respond i)).1, (pushStep cat ex item (respond i)).2.1)
        :: pushLoop cat respond (i + 1) (pushStep cat ex item (respond i)).2.2 rest := rfl

theorem pushStep_call_ne_get {cat : PushCat} {ex : List String} {item : PushItem}
    {resp : UpsertResp} {c : Call}
    (hc : (pushStep cat ex item resp).2.1 = some c) : c ≠ Call.getExisting := by
  by_cases hname : pyStripS (item.name.getD "") = ""
  · rw [pushStep_empty hname] at hc
    simp at hc
  · rw [pushStep_call hname] at hc
    intro hgc
    subst hgc
    have h2 := Option.some_inj.mp hc
    by_cases hm : pyStripS (item.name.getD "") ∈ ex
    · rw [if_pos hm] at h2
      exact Call.noConfusion h2
    · rw [if_neg hm] at h2
      exact Call.noConfusion h2

theorem pushLoop_call_ne_get (cat : PushCat) (respond : Nat → UpsertResp) :
    ∀ (i : Nat) (ex : List String) (items : List PushItem) (c : Call),
      c ∈ (pushLoop cat respond i ex items).filterMap Prod.snd → c ≠ Call.getExisting
  | _, _, [], c, h => by simp [pushLoop] at h
  | i, ex, item :: rest, c, h => by
      rw [pushLoop_cons, List.filterMap_cons] at h
      dsimp only at h
      cases hcall : (pushStep cat ex item (respond i)).2.1 with
      | none =>
          rw [hcall] at h
          exact pushLoop_call_ne_get cat respond (i + 1) _ rest c h
      | some c2 =>
          rw [hcall] at h
          rcases List.mem_cons.mp h with rfl | h2
          · exact pushStep_call_ne_get hcall
          · exact pushLoop_call_ne_get cat respond (i + 1) _ rest c h2

theorem fg_push_fetch_once (cat : PushCat) (respond : Nat → UpsertResp)
    (existing0 : List String) (items : List PushItem) :
    (fg_push_calls cat respond existing0 items).count Call.getExisting = 1 := by
  rw [fg_push_calls, List.count_cons]
  have h0 : ((fg_push cat respond existing0 items).filterMap Prod.snd).count
      Call.getExisting = 0 := by
    rw [List.count_eq_zero]
    intro hc
    exact pushLoop_call_ne_get cat respond 0 existing0 items Call.getExisting hc rfl
  rw [h0]
  simp

theorem pushLoop_put_of_mem (cat : PushCat) (respond : Nat → UpsertResp) :
    ∀ (items : List PushItem) (i : Nat) (ex : List String) (j : Nat) (n : String),
      n ∈ ex → n ≠ "" →
      (∃ item, items[j]? = some item ∧ pyStripS (item.name.getD "") = n) →
      ∃ res, (pushLoop cat respond i ex items)[j]? = some res ∧
        res.2 = some (Call.put n)
  | [], _, _, j, n, _, _, hit => by
      obtain ⟨item, hitem, _⟩ := hit
      simp at hitem
  | item0 :: rest, i, ex, 0, n, hmem, hne, hit => by
      obtain ⟨item, hitem, hstrip⟩ := hit
      have hi0 : item0 = item := by simpa using hitem
      subst hi0
      rw [pushLoop_cons]
      refine ⟨((pushStep cat ex item0 (respond i)).1,
        (pushStep cat ex item0 (respond i)).2.1), by simp, ?_⟩
      show (pushStep cat ex item0 (respond i)).2.1 = some (Call.put n)
      have hx : pyStripS (item0.name.getD "") ≠ "" := by rw [hstrip]; exact hne
      rw [pushStep_call hx, hstrip, if_pos hmem]
  | item0 :: rest, i, ex, j + 1, n, hmem, hne, hit => by
      obtain ⟨item, hitem, hstrip⟩ := hit
      have hit2 : rest[j]? = some item := by simpa using hitem
      have hmem2 : n ∈ (pushStep cat ex item0 (respond i)).2.2 :=
        pushStep_existing_mono hmem
      obtain ⟨res, hres, hcall⟩ := pushLoop_put_of_mem cat respond rest (i + 1)
        (pushStep cat ex item0 (respond i)).2.2 j n hmem2 hne ⟨item, hit2, hstrip⟩
      refine ⟨res, ?_, hcall⟩
      rw [pushLoop_cons]
      simpa using hres

theorem pushLoop_dedup (cat : PushCat) (respond : Nat → UpsertResp)
    (items : List PushItem) :
    ∀ (k : Nat) (ex : List String) (i j : Nat) (n o : String) (code : Nat),
      i < j →
      (∃ resI, (pushLoop cat respond k ex items)[i]? = some resI ∧
        Outcome.ok n o code ∈ resI.1) →
      (∃ item, items[j]? = some item ∧ pyStripS (item.name.getD "") = n) →
      ∃ resJ, (pushLoop cat respond k ex items)[j]? = some resJ ∧
        resJ.2 = some (Call.put n) := by
  induction items with
  | nil =>
      intro k ex i j n o code hij hresI hitem
      obtain ⟨resI, hresI, _⟩ := hresI
      simp [pushLoop] at hresI
  | cons item0 rest ih =>
      intro k ex i j n o code hij hresI hitem
      obtain ⟨resI, hresI, hok⟩ := hresI
      obtain ⟨item, hitem, hstrip⟩ := hitem
      cases i with
      | zero =>
          rw [pushLoop_cons] at hresI
          have hres0 : ((pushStep cat ex item0 (respond k)).1,
              (pushStep cat ex item0 (respond k)).2.1) = resI := by simpa using hresI
          rw [← hres0] at hok
          obtain ⟨hn, hne, hnew⟩ := pushStep_ok_mem (respond k) hok
          cases j with
          | zero => omega
          | succ j2 =>
              have hit2 : rest[j2]? = some item := by simpa using hitem
              have hmem : n ∈ (pushStep cat ex item0 (respond k)).2.2 := by
                rw [hnew]
                exact List.mem_cons_self n ex
              obtain ⟨res, hres, hcall⟩ := pushLoop_put_of_mem cat respond rest
                (k + 1) (pushStep cat ex item0 (respond k)).2.2 j2 n hmem hne
                ⟨item, hit2, hstrip⟩
              refine ⟨res, ?_, hcall⟩
              rw [pushLoop_cons]
              simpa using hres
      | succ i2 =>
          cases j with
          | zero => omega
          | succ j2 =>
              have hresI2 : (pushLoop cat respond (k + 1)
                  (pushStep cat ex item0 (respond k)).2.2 rest)[i2]? = some resI := by
                rw [pushLoop_cons] at hresI
                simpa using hresI
              have hit2 : rest[j2]? = some item := by simpa using hitem
              obtain ⟨res, hres, hcall⟩ := ih (k + 1)
                (pushStep cat ex item0 (respond k)).2.2 i2 j2 n o code
                (by omega) ⟨resI, hresI2, hok⟩ ⟨item, hit2, hstrip⟩
              refine ⟨res, ?_, hcall⟩
              rw [pushLoop_cons]
              simpa using hres

/-! ## Claim C6 -/

/-- **C6.** For every category push: the existing-name set is fetched exactly
once (the call trace counts one `getExisting`); a record whose stripped
canonical name is empty yields one `skip` outcome, no remote call, and leaves
the existing set unchanged; otherwise the remote call is an update (`PUT`)
exactly when the name is in the existing set, else a create (`POST`); a
200/201/204 response yields an `ok` outcome carrying the status code and adds
the name to the existing set; any other response yields an `err` outcome with
the truncated `HTTP code: text` diagnostic; a transport failure yields an
`err` outcome with the truncated exception message. -/
theorem push_step_contract :
    (∀ (cat : PushCat) (respond : Nat → UpsertResp) (existing0 : List String)
        (items : List PushItem),
      (fg_push_calls cat respond existing0 items).count Call.getExisting = 1) ∧
    (∀ (cat : PushCat) (ex : List String) (item : PushItem) (resp : UpsertResp),
      (pyStripS (item.name.getD "") = "" →
        pushStep cat ex item resp = ([Outcome.skip "" "" "Empty name"], none, ex)) ∧
      (pyStripS (item.name.getD "") ≠ "" →
        (pushStep cat ex item resp).2.1
          = some (if pyStripS (item.name.getD "") ∈ ex
              then Call.put (pyStripS (item.name.getD ""))
              else Call.post (pyStripS (item.name.getD "")))) ∧
      (∀ (code : Nat) (txt : String), pyStripS (item.name.getD "") ≠ "" →
        (code = 200 ∨ code = 201 ∨ code = 204) →
        (pushStep cat ex item (Except.ok (code, txt))).1.getLast?
            = some (Outcome.ok (pyStripS (item.name.getD ""))
                (item.orig_name.getD (pyStripS (item.name.getD ""))) code) ∧
          (pushStep cat ex item (Except.ok (code, txt))).2.2
            = pyStripS (item.name.getD "") :: ex) ∧
      (∀ (code : Nat) (txt : String), pyStripS (item.name.getD "") ≠ "" →
        ¬(code = 200 ∨ code = 201 ∨ code = 204) →
        (pushStep cat ex item (Except.ok (code, txt))).1.getLast?
            = some (Outcome.err (pyStripS (item.name.getD ""))
                (item.orig_name.getD (pyStripS (item.name.getD "")))
                ("HTTP " ++ toString code ++ ": " ++ takeStr txt 150)) ∧
          (pushStep cat ex item (Except.ok (code, txt))).2.2 = ex) ∧
      (∀ e : String, pyStripS (item.name.getD "") ≠ "" →
        (pushStep cat ex item (Except.error e)).1.getLast?
            = some (Outcome.err (pyStripS (item.name.getD ""))
                (item.orig_name.getD (pyStripS (item.name.getD "")))
                (takeStr e 150)) ∧
          (pushStep cat ex item (Except.error e)).2.2 = ex)) :=
  ⟨fg_push_fetch_once,
   fun _ _ _ _ =>
     ⟨fun h => pushStep_empty h,
      fun h => pushStep_call h,
      fun _ _ h hc => pushStep_ok_success h hc,
      fun _ _ h hc => pushStep_err_code h hc,
      fun _ h => pushStep_err_exn h⟩⟩

/-- **C6 — witness.** The contract instantiated on concrete pushes: an
empty-name skip, an update when the name exists, a create when it does not,
an `ok` outcome with its code, an `err` outcome for a 500 response, an `err`
outcome for a transport failure, and the single fetch. -/
theorem push_step_contract_witness :
    pushStep PushCat.hosts [] ⟨some " ", none, []⟩ (Except.ok (200, ""))
      = ([Outcome.skip "" "" "Empty name"], none, []) ∧
    (pushStep PushCat.hosts ["X"] ⟨some "X", none, []⟩ (Except.ok (200, ""))).2.1
      = some (Call.put "X") ∧
    (pushStep PushCat.hosts [] ⟨some "X", none, []⟩ (Except.ok (200, ""))).2.1
      = some (Call.post "X") ∧
    (pushStep PushCat.hosts [] ⟨some "X", none, []⟩ (Except.ok (200, ""))).1.getLast?
      = some (Outcome.ok "X" "X" 200) ∧
    (pushStep PushCat.hosts [] ⟨some "X", none, []⟩
        (Except.ok (500, "boom"))).1.getLast?
      = some (Outcome.err "X" "X" "HTTP 500: boom") ∧
    (pushStep PushCat.hosts [] ⟨some "X", none, []⟩
        (Except.error "down")).1.getLast?
      = some (Outcome.err "X" "X" "down") ∧
    (fg_push_calls PushCat.hosts (fun _ => Except.ok (200, "")) []
        [⟨some "X", none, []⟩]).count Call.getExisting = 1 := by
  refine ⟨?_, ?_, ?_, ?_, ?_, ?_, ?_⟩
  · exact (push_step_contract.2 PushCat.hosts [] ⟨some " ", none, []⟩
      (Except.ok (200, ""))).1 (by decide)
  · rw [(push_step_contract.2 PushCat.hosts ["X"] ⟨some "X", none, []⟩
      (Except.ok (200, ""))).2.1 (by decide)]
    decide
  · rw [(push_step_contract.2 PushCat.hosts [] ⟨some "X", none, []⟩
      (Except.ok (200, ""))).2.1 (by decide)]
    decide
  · rw [((push_step_contract.2 PushCat.hosts [] ⟨some "X", none, []⟩
      (Except.ok (200, ""))).2.2.1 200 "" (by decide) (by decide)).1]
    decide
  · rw [((push_step_contract.2 PushCat.hosts [] ⟨some "X", none, []⟩
      (Except.ok (500, "boom"))).2.2.2.1 500 "boom" (by decide) (by decide)).1]
    decide
  · rw [((push_step_contract.2 PushCat.hosts [] ⟨some "X", none, []⟩
      (Except.error "down")).2.2.2.2 "down" (by decide)).1]
    decide
  · exact push_step_contract.1 PushCat.hosts (fun _ => Except.ok (200, "")) []
      [⟨some "X", none, []⟩]

/-! ## Claim C9 -/

/-- **C9.** Within one category push, once a record's upsert succeeds (an
`ok` outcome at position `i`), its canonical name is in the in-memory
existing-name set for the rest of the run; any later record at position
`j > i` whose stripped name is the same canonical name is therefore sent as
an update (`PUT`) of the existing remote object, never as a second create. -/
theorem push_dedup_update (cat : PushCat) (respond : Nat → UpsertResp)
    (existing0 : List String) (items : List PushItem) (i j : Nat)
    (n o : String) (code : Nat) (hij : i < j)
    (hok : ∃ resI, (fg_push cat respond existing0 items)[i]? = some resI ∧
        Outcome.ok n o code ∈ resI.1)
    (hitem : ∃ item, items[j]? = some item ∧ pyStripS (item.name.getD "") = n) :
    ∃ resJ, (fg_push cat respond existing0 items)[j]? = some resJ ∧
      resJ.2 = some (Call.put n) :=
  pushLoop_dedup cat respond items 0 existing0 i j n o code hij hok hitem

/-- **C9 — witness.** Two items with the same name `X` pushed into an empty
remote: the first is created (`ok` at index 0), the second is updated. -/
theorem push_dedup_update_witness :
    ∃ resJ, (fg_push PushCat.hosts (fun _ => Except.ok (200, "")) []
        [⟨some "X", some "A", []⟩, ⟨some "X", some "B", []⟩])[1]? = some resJ ∧
      resJ.2 = some (Call.put "X") := by
  apply push_dedup_update PushCat.hosts (fun _ => Except.ok (200, "")) []
    [⟨some "X", some "A", []⟩, ⟨some "X", some "B", []⟩] 0 1 "X" "A" 200
    (by decide)
  · exact ⟨([Outcome.ok "X" "A" 200], some (Call.post "X")), by decide, by decide⟩
  · exact ⟨⟨some "X", some "B", []⟩, by decide, by decide⟩

theorem string_eq_of_data {b c : String} (h : b.data = c.data) : b = c :=
  congrArg String.mk h

theorem string_append_cancel {a b c : String} (h : a ++ b = a ++ c) : b = c := by
  have hd : (a ++ b).data = (a ++ c).data := by rw [h]
  rw [String.data_append, String.data_append] at hd
  exact string_eq_of_data (List.append_cancel_left hd)

theorem lookup_dictSet (k v k' : String) :
    ∀ row : List (String × String),
      (dictSet row k v).lookup k' = if k' = k then some v else row.lookup k'
  | [] => by
      by_cases h : k' = k
      · simp [dictSet, h]
      · simp [dictSet, h, Ne.symm h]
  | (k0, v0) :: rest => by
      by_cases h0 : k0 = k
      · subst h0
        by_cases h1 : k' = k0
        · subst h1
          simp [dictSet]
        · have hb : (k' == k0) = false := by simp [h1]
          simp [dictSet, List.lookup_cons, hb, h1]
      · rw [dictSet, if_neg h0]
        by_cases h1 : k' = k0
        · subst h1
          simp [List.lookup_cons, h0]
        · have hb : (k' == k0) = false := by simp [h1]
          simp only [List.lookup_cons, hb]
          exact lookup_dictSet k v k' rest

theorem dictSet_key_mem {k v : String} {kv : String × String} :
    ∀ {row : List (String × String)}, kv ∈ dictSet row k v → kv.1 = k ∨ kv ∈ row
  | [], h => by
      rw [dictSet] at h
      rcases List.mem_singleton.mp h with rfl
      exact Or.inl rfl
  | (k0, v0) :: rest, h => by
      rw [dictSet] at h
      split at h
      · rcases List.mem_cons.mp h with rfl | h2
        · rename_i heq
          exact Or.inl heq
        · exact Or.inr (List.mem_cons_of_mem _ h2)
      · rcases List.mem_cons.mp h with rfl | h2
        · exact Or.inr (List.mem_cons_self _ _)
        · rcases dictSet_key_mem h2 with h3 | h3
          · exact Or.inl h3
          · exact Or.inr (List.mem_cons_of_mem _ h3)

theorem lookup_dictSets_of_ne (K : String) :
    ∀ (kvs : List (String × String)) (row : List (String × String)),
      (∀ kv ∈ kvs, kv.1 ≠ K) →
      (dictSets row kvs).lookup K = row.lookup K
  | [], _, _ => rfl
  | (k, v) :: rest, row, h => by
      rw [dictSets,
        lookup_dictSets_of_ne K rest _ (fun kv hkv => h kv (List.mem_cons_of_mem _ hkv)),
        lookup_dictSet]
      have hne : ¬ K = k := fun hc => h (k, v) (List.mem_cons_self _ _) hc.symm
      rw [if_neg hne]

theorem dictSets_key_mem {kv : String × String} :
    ∀ {kvs row : List (String × String)}, kv ∈ dictSets row kvs →
      kv ∈ row ∨ kv.1 ∈ kvs.map Prod.fst
  | [], _, h => Or.inl h
  | (k, v) :: rest, row, h => by
      rw [dictSets] at h
      rcases dictSets_key_mem h with h2 | h2
      · rcases dictSet_key_mem h2 with h3 | h3
        · refine Or.inr ?_
          rw [List.map_cons, h3]
          exact List.mem_cons_self _ _
        · exact Or.inl h3
      · refine Or.inr ?_
        rw [List.map_cons]
        exact List.mem_cons_of_mem _ h2

theorem lookup_dictSets_assoc (K v : String) :
    ∀ (kvs : List (String × String)) (row : List (String × String)),
      kvs.lookup K = some v → (kvs.map Prod.fst).Nodup →
      (dictSets row kvs).lookup K = some v
  | [], _, h, _ => by simp at h
  | (k0, v0) :: rest, row, h, hnd => by
      rw [List.map_cons] at hnd
      have hhead : k0 ∉ rest.map Prod.fst := (List.nodup_cons.mp hnd).1
      have htail : (rest.map Prod.fst).Nodup := (List.nodup_cons.mp hnd).2
      rw [dictSets]
      by_cases hK : k0 = K
      · subst hK
        have hv : v0 = v := by
          have h2 := h
          simp only [List.lookup_cons, beq_self_eq_true, if_true] at h2
          exact Option.some_inj.mp h2
        subst hv
        have hnot : ∀ kv ∈ rest, kv.1 ≠ k0 := by
          intro kv hkv hkk
          apply hhead
          rw [← hkk]
          exact List.mem_map_of_mem Prod.fst hkv
        rw [lookup_dictSets_of_ne k0 rest _ hnot, lookup_dictSet]
        simp
      · have hb : (K == k0) = false := by
          simp only [beq_eq_false_iff_ne, ne_eq]
          intro hc
          exact hK hc.symm
        have h2 : rest.lookup K = some v := by
          have h3 := h
          simp only [List.lookup_cons, hb, Bool.false_eq_true, if_false] at h3
          exact h3
        exact lookup_dictSets_assoc K v rest _ h2 htail

/-- Looking up `cp ++ k` in the written association list of a grouped tag:
the first matching key determines the value, and key equality cancels `cp`. -/
theorem lookup_map_keys (cp : String) (f : String → String) (k : String) :
    ∀ keys : List String, k ∈ keys →
      (keys.map (fun ki => (cp ++ ki, f ki))).lookup (cp ++ k) = some (f k)
  | [], h => absurd h (List.not_mem_nil k)
  | k0 :: rest, h => by
      rw [List.map_cons, List.lookup_cons]
      by_cases h0 : k0 = k
      · subst h0
        simp
      · have hb : (cp ++ k == cp ++ k0) = false := by
          simp only [beq_eq_false_iff_ne, ne_eq]
          intro hc
          exact h0 (string_append_cancel hc).symm
        simp only [List.lookup_cons, hb, Bool.false_eq_true, if_false]
        rcases List.mem_cons.mp h with rfl | h2
        · exact absurd rfl h0
        · exact lookup_map_keys cp f k rest h2

/-! ## Dotted-path disjointness -/

theorem dot_split_inj : ∀ {a b x y : List Char},
    '.' ∉ a → '.' ∉ b → a ++ '.' :: x = b ++ '.' :: y → a = b ∧ x = y
  | [], [], x, y, _, _, h => ⟨rfl, by simpa using h⟩
  | [], b0 :: b', _, _, _, hb, h => by
      exfalso
      rw [List.nil_append, List.cons_append] at h
      injection h with h1 _
      exact hb (by rw [← h1]; exact List.mem_cons_self _ _)
  | a0 :: a', [], _, _, ha, _, h => by
      exfalso
      rw [List.cons_append, List.nil_append] at h
      injection h with h1 _
      exact ha (by rw [h1]; exact List.mem_cons_self _ _)
  | a0 :: a', b0 :: b', x, y, ha, hb, h => by
      rw [List.cons_append, List.cons_append] at h
      injection h with h1 h2
      have h3 := dot_split_inj (fun hc => ha (List.mem_cons_of_mem _ hc))
        (fun hc => hb (List.mem_cons_of_mem _ hc)) h2
      exact ⟨by rw [h1, h3.1], h3.2⟩

theorem dotted_data (a x : String) :
    (a ++ "." ++ x).data = a.data ++ '.' :: x.data := by
  rw [String.data_append, String.data_append, List.append_assoc]
  rfl

theorem data_cp_ggg (cp gt k2 : String) :
    (cp ++ gt ++ "." ++ k2).data = cp.data ++ (gt.data ++ '.' :: k2.data) := by
  rw [String.data_append, String.data_append, String.data_append,
    List.append_assoc, List.append_assoc]
  rfl

theorem key_ne_ggg {cp k gt k2 : String} (hkdf : dotFree k) :
    cp ++ gt ++ "." ++ k2 ≠ cp ++ k := by
  intro hc
  have hd := congrArg String.data hc
  rw [data_cp_ggg, String.data_append] at hd
  have h2 := List.append_cancel_left hd
  apply hkdf
  rw [← h2]
  exact List.mem_append_right _ (List.mem_cons_self _ _)

theorem pre_append (a b : String) : a.data <+: (a ++ b).data := by
  rw [String.data_append]
  exact List.prefix_append _ _

theorem pre_cp_ggg (cp gt k2 : String) : cp.data <+: (cp ++ gt ++ "." ++ k2).data := by
  rw [data_cp_ggg]
  exact List.prefix_append _ _

theorem not_pre_dotted {ct tg k : String} (hct : dotFree ct) (htg : dotFree tg)
    (hne : ct ≠ tg) : ¬ ((ct ++ ".").data <+: (tg ++ "." ++ k).data) := by
  intro hc
  obtain ⟨s, hs⟩ := hc
  rw [dotted_data, String.data_append] at hs
  have hdot : (".").data = ['.'] := rfl
  rw [hdot, List.append_assoc] at hs
  have hs2 : ct.data ++ '.' :: s = tg.data ++ '.' :: k.data := by
    simpa using hs
  exact hne (string_eq_of_data (dot_split_inj hct htg hs2).1)

/-! ## `groupCols` lookup lemmas -/

theorem foldl_write_lookup (W : String → List (String × String)) (K : String) :
    ∀ (gts : List String) (r0 : List (String × String)),
      (∀ gt ∈ gts, ∀ kv ∈ W gt, kv.1 ≠ K) →
      (gts.foldl (fun r gt => dictSets r (W gt)) r0).lookup K = r0.lookup K
  | [], _, _ => rfl
  | gt0 :: gts, r0, h => by
      rw [List.foldl_cons,
        foldl_write_lookup W K gts _ (fun gt hgt => h gt (List.mem_cons_of_mem _ hgt))]
      exact lookup_dictSets_of_ne K (W gt0) r0 (h gt0 (List.mem_cons_self _ _))

theorem foldl_write_key_mem (W : String → List (String × String)) {kv : String × String} :
    ∀ (gts : List String) (r0 : List (String × String)),
      kv ∈ gts.foldl (fun r gt => dictSets r (W gt)) r0 →
      kv ∈ r0 ∨ ∃ gt ∈ gts, kv.1 ∈ (W gt).map Prod.fst
  | [], _, h => Or.inl h
  | gt0 :: gts, r0, h => by
      rw [List.foldl_cons] at h
      rcases foldl_write_key_mem W gts _ h with h2 | h2
      · rcases dictSets_key_mem h2 with h3 | h3
        · exact Or.inl h3
        · exact Or.inr ⟨gt0, List.mem_cons_self _ _, h3⟩
      · obtain ⟨gt, hgt, hk⟩ := h2
        exact Or.inr ⟨gt, List.mem_cons_of_mem _ hgt, hk⟩

theorem mem_map_keys_pre {α : Type} {cp : String} {g : α → String × String}
    (hpre : ∀ x, cp.data <+: (g x).1.data) {k' : String} {keys : List α}
    (h : k' ∈ (keys.map g).map Prod.fst) : cp.data <+: k'.data := by
  rw [List.map_map] at h
  obtain ⟨x, _, hx⟩ := List.mem_map.mp h
  rw [← hx]
  exact hpre x

theorem groupCols_lookup_attr {cp : String} {insts : List Element}
    {row : List (String × String)} {k : String}
    (hk : k ∈ unionKeys insts) (hkdf : dotFree k) :
    (groupCols cp insts row).lookup (cp ++ k) = some (joinedAttr insts k) := by
  simp only [groupCols]
  rw [foldl_write_lookup _ _ _ _ ?hW]
  case hW =>
    intro gt _ kv hkv
    obtain ⟨k2, _, hk2⟩ := List.mem_map.mp hkv
    rw [← hk2]
    exact key_ne_ggg hkdf
  have hne : unionKeys insts ≠ [] := by
    intro hc
    rw [hc] at hk
    exact absurd hk (List.not_mem_nil k)
  rw [if_pos hne]
  apply lookup_dictSets_assoc
  · exact lookup_map_keys cp (joinedAttr insts) k (unionKeys insts) hk
  · rw [List.map_map]
    have hinj : Function.Injective (fun ki : String => cp ++ ki) := by
      intro a b hab
      exact string_append_cancel hab
    have hnd : (unionKeys insts).Nodup := dedupFirstAux_nodup [] _
    exact hnd.map hinj

theorem groupCols_lookup_text {cp : String} {insts : List Element}
    {row : List (String × String)}
    (hkeys : unionKeys insts = []) (hne : groupTexts insts ≠ []) :
    (groupCols cp insts row).lookup (cp ++ "_text")
      = some (joinSep (groupTexts insts)) := by
  simp only [groupCols]
  rw [foldl_write_lookup _ _ _ _ ?hW]
  case hW =>
    intro gt _ kv hkv
    obtain ⟨k2, _, hk2⟩ := List.mem_map.mp hkv
    rw [← hk2]
    exact key_ne_ggg (by decide)
  rw [if_neg (fun hc => hc hkeys)]
  cases hgt : groupTexts insts with
  | nil => exact absurd hgt hne
  | cons v vs =>
      simp only [hgt]
      rw [lookup_dictSet, if_pos rfl]

theorem groupCols_lookup_other {cp : String} {insts : List Element}
    {row : List (String × String)} {K : String}
    (h : ¬ cp.data <+: K.data) :
    (groupCols cp insts row).lookup K = row.lookup K := by
  simp only [groupCols]
  rw [foldl_write_lookup _ _ _ _ ?hW]
  case hW =>
    intro gt _ kv hkv hkk
    obtain ⟨k2, _, hk2⟩ := List.mem_map.mp hkv
    apply h
    rw [← hkk, ← hk2]
    exact pre_cp_ggg cp gt k2
  by_cases hkeys : unionKeys insts ≠ []
  · rw [if_pos hkeys]
    apply lookup_dictSets_of_ne
    intro kv hkv hkk
    obtain ⟨k2, _, hk2⟩ := List.mem_map.mp hkv
    apply h
    rw [← hkk, ← hk2]
    exact pre_append cp k2
  · rw [if_neg hkeys]
    cases hgt : groupTexts insts with
    | nil => rfl
    | cons v vs =>
        simp only [hgt]
        rw [lookup_dictSet, if_neg ?hne2]
        case hne2 =>
          intro hc
          apply h
          rw [hc]
          exact pre_append cp "_text"

theorem groupCols_key_mem {cp : String} {insts : List Element}
    {row : List (String × String)} {kv : String × String}
    (h : kv ∈ groupCols cp insts row) : kv ∈ row ∨ cp.data <+: kv.1.data := by
  simp only [groupCols] at h
  rcases foldl_write_key_mem _ _ _ h with h2 | h2
  · by_cases hkeys : unionKeys insts ≠ []
    · rw [if_pos hkeys] at h2
      rcases dictSets_key_mem h2 with h3 | h3
      · exact Or.inl h3
      · exact Or.inr (mem_map_keys_pre (fun x => pre_append cp x) h3)
    · rw [if_neg hkeys] at h2
      cases hgt : groupTexts insts with
      | nil =>
          rw [hgt] at h2
          exact Or.inl h2
      | cons v vs =>
          rw [hgt] at h2
          simp only at h2
          rcases dictSet_key_mem h2 with h3 | h3
          · refine Or.inr ?_
            rw [h3]
            exact pre_append cp "_text"
          · exact Or.inl h3
  · obtain ⟨gt, _, hk⟩ := h2
    exact Or.inr (mem_map_keys_pre (fun x => pre_cp_ggg cp gt x) hk)

theorem foldl_groupCols_lookup (pre : String) (children : List Element) (K : String) :
    ∀ (tags : List String) (r0 : List (String × String)),
      (∀ t ∈ tags, ¬ (pre ++ t ++ ".").data <+: K.data) →
      (tags.foldl (fun r t =>
          groupCols (pre ++ t ++ ".") (children.filter (fun c => c.tag == t)) r)
        r0).lookup K = r0.lookup K
  | [], _, _ => rfl
  | t0 :: tags, r0, h => by
      rw [List.foldl_cons,
        foldl_groupCols_lookup pre children K tags _
          (fun t ht => h t (List.mem_cons_of_mem _ ht)),
        groupCols_lookup_other (h t0 (List.mem_cons_self _ _))]

theorem foldl_groupCols_key_mem (pre : String) (children : List Element)
    {kv : String × String} :
    ∀ (tags : List String) (r0 : List (String × String)),
      kv ∈ tags.foldl (fun r t =>
          groupCols (pre ++ t ++ ".") (children.filter (fun c => c.tag == t)) r) r0 →
      kv ∈ r0 ∨ pre.data <+: kv.1.data
  | [], _, h => Or.inl h
  | t0 :: tags, r0, h => by
      rw [List.foldl_cons] at h
      rcases foldl_groupCols_key_mem pre children tags _ h with h2 | h2
      · rcases groupCols_key_mem h2 with h3 | h3
        · exact Or.inl h3
        · refine Or.inr (List.IsPrefix.trans ?_ h3)
          rw [String.data_append]
          exact (List.prefix_append _ _).trans (by rw [← String.data_append]; exact pre_append (pre ++ t0) ".")
      · exact Or.inr h2

theorem pre_append2 (p a b : String) : p.data <+: (p ++ a ++ b).data := by
  rw [String.data_append, String.data_append, List.append_assoc]
  exact List.prefix_append _ _

mutual
theorem flatten_key_pre : ∀ (el : Element) (p : String) (kv : String × String),
    kv ∈ flatten_element el p → p.data <+: kv.1.data
  | .mk t0 attrib text cs, p, kv, h => by
      simp only [flatten_element] at h
      rcases flattenSingles_key_pre cs.toList cs p _ kv h with h2 | h2
      · rcases foldl_groupCols_key_mem p cs.toList _ _ h2 with h3 | h3
        · have hrow0 : ∀ kv2 : String × String,
              kv2 ∈ dictSets [] (attrib.map (fun kv3 => (p ++ kv3.1, truncVal kv3.2))) →
              p.data <+: kv2.1.data := by
            intro kv2 hkv2
            rcases dictSets_key_mem hkv2 with h4 | h4
            · exact absurd h4 (List.not_mem_nil kv2)
            · exact mem_map_keys_pre (fun x => pre_append p x.1) h4
          cases text with
          | none => exact hrow0 kv h3
          | some tx =>
              dsimp only at h3
              by_cases htx : pyStripS tx = ""
              · rw [if_pos htx] at h3
                exact hrow0 kv h3
              · rw [if_neg htx] at h3
                rcases dictSet_key_mem h3 with h4 | h4
                · rw [h4]
                  exact pre_append p "_text"
                · exact hrow0 kv h4
        · exact h3
      · exact h2

theorem flattenSingles_key_pre : ∀ (allcs : List Element) (cs : ElemList) (p : String)
    (row : List (String × String)) (kv : String × String),
    kv ∈ flattenSingles allcs cs p row → kv ∈ row ∨ p.data <+: kv.1.data
  | _, .nil, _, _, _, h => Or.inl h
  | allcs, .cons c rest, p, row, kv, h => by
      rw [flattenSingles] at h
      split at h
      · rcases flattenSingles_key_pre allcs rest p _ kv h with h2 | h2
        · rcases dictSets_key_mem h2 with h3 | h3
          · exact Or.inl h3
          · refine Or.inr ?_
            obtain ⟨kv2, hkv2, hk2⟩ := List.mem_map.mp h3
            have hpre := flatten_key_pre c (p ++ c.tag ++ ".") kv2 hkv2
            rw [← hk2]
            exact List.IsPrefix.trans (pre_append2 p c.tag ".") hpre
        · exact Or.inr h2
      · rcases flattenSingles_key_pre allcs rest p _ kv h with h2 | h2
        · exact Or.inl h2
        · exact Or.inr h2
end

theorem flattenSingles_lookup (allcs : List Element) (K : String) :
    ∀ (cs : ElemList) (p : String) (row : List (String × String)),
      (∀ c ∈ cs.toList, countTag allcs c.tag = 1 →
        ¬ (p ++ c.tag ++ ".").data <+: K.data) →
      (flattenSingles allcs cs p row).lookup K = row.lookup K
  | .nil, _, _, _ => rfl
  | .cons c rest, p, row, h => by
      have htail : ∀ c2 ∈ rest.toList, countTag allcs c2.tag = 1 →
          ¬ (p ++ c2.tag ++ ".").data <+: K.data := by
        intro c2 hc2
        exact h c2 (by rw [ElemList.toList]; exact List.mem_cons_of_mem _ hc2)
      rw [flattenSingles]
      split
      · rename_i hcount
        rw [flattenSingles_lookup allcs K rest p _ htail]
        apply lookup_dictSets_of_ne
        intro kv hkv hkk
        have hpre := flatten_key_pre c (p ++ c.tag ++ ".") kv hkv
        rw [hkk] at hpre
        exact h c (by rw [ElemList.toList]; exact List.mem_cons_self _ _) hcount hpre
      · exact flattenSingles_lookup allcs K rest p row htail

theorem groupedTags_dotFree {children : List Element} {t : String}
    (hTags : ∀ c ∈ children, dotFree c.tag) (ht : t ∈ groupedTags children) :
    dotFree t := by
  have h1 : t ∈ childTags children := List.mem_of_mem_filter ht
  have h2 : t ∈ children.map Element.tag := mem_dedupFirst.mp h1
  obtain ⟨c, hc, rfl⟩ := List.mem_map.mp h2
  exact hTags c hc

theorem groupedTags_count {children : List Element} {t : String}
    (ht : t ∈ groupedTags children) : 1 < countTag children t := by
  have h1 := List.of_mem_filter ht
  simpa using h1

theorem groupedTags_nodup (children : List Element) : (groupedTags children).Nodup :=
  (dedupFirstAux_nodup [] _).filter _

theorem unionKeys_dotFree {children insts : List Element} {k : String}
    (hKeys : ∀ c ∈ children, ∀ kv ∈ c.attrib, dotFree kv.1)
    (hsub : ∀ c ∈ insts, c ∈ children) (hk : k ∈ unionKeys insts) : dotFree k := by
  have h2 := mem_dedupFirst.mp hk
  rw [List.mem_flatMap] at h2
  obtain ⟨c, hc, hk2⟩ := h2
  obtain ⟨kv, hkv, rfl⟩ := List.mem_map.mp hk2
  exact hKeys c (hsub c hc) kv hkv

theorem not_pre_K_of_ne {pre t tg k : String} (htdf : dotFree t) (htgdf : dotFree tg)
    (hne : t ≠ tg) : ¬ (pre ++ t ++ ".").data <+: (pre ++ tg ++ "." ++ k).data := by
  intro hc
  apply not_pre_dotted htdf htgdf hne
  have h1 : (pre ++ t ++ ".").data = pre.data ++ (t ++ ".").data := by
    rw [String.data_append, String.data_append, String.data_append, List.append_assoc]
  have h2 : (pre ++ tg ++ "." ++ k).data = pre.data ++ (tg ++ "." ++ k).data := by
    rw [data_cp_ggg, dotted_data]
  rw [h1, h2] at hc
  exact (List.prefix_append_right_inj _).mp hc

/-- Reduce a column lookup on a flattened element to a lookup on the grouped
tag's own `groupCols` application (for some accumulated row): no later write
of the flattening pipeline touches the `pre ++ tg ++ "." ++ w` path when tags
are period-free and `w` is period-free. -/
theorem flatten_grouped_lookup_core (t0 : String) (attrib : List (String × String))
    (text : Option String) (cs : ElemList) (pre tg w : String)
    (hTags : ∀ c ∈ cs.toList, dotFree c.tag)
    (hgrp : tg ∈ groupedTags cs.toList) :
    ∃ r0, (flatten_element (.mk t0 attrib text cs) pre).lookup (pre ++ tg ++ "." ++ w)
      = (groupCols (pre ++ tg ++ ".") (cs.toList.filter (fun c => c.tag == tg))
          r0).lookup (pre ++ tg ++ "." ++ w) := by
  have htgdf : dotFree tg := groupedTags_dotFree hTags hgrp
  have htgcount := groupedTags_count hgrp
  simp only [flatten_element]
  rw [flattenSingles_lookup _ _ _ _ _ ?hsingles]
  case hsingles =>
    intro c hc hcount
    have hne : c.tag ≠ tg := by
      intro hc2
      rw [hc2] at hcount
      omega
    exact not_pre_K_of_ne (hTags c hc) htgdf hne
  obtain ⟨l1, l2, hsplit⟩ := List.append_of_mem hgrp
  have hnd := groupedTags_nodup cs.toList
  rw [hsplit] at hnd
  have htg_not_l2 : tg ∉ l2 := (List.nodup_cons.mp hnd.of_append_right).1
  rw [hsplit, List.foldl_append, List.foldl_cons]
  rw [foldl_groupCols_lookup pre cs.toList _ l2 _ ?hl2]
  case hl2 =>
    intro t ht
    have htgrp : t ∈ groupedTags cs.toList := by
      rw [hsplit]
      exact List.mem_append_right _ (List.mem_cons_of_mem _ ht)
    have hne : t ≠ tg := fun hc => htg_not_l2 (hc ▸ ht)
    exact not_pre_K_of_ne (groupedTags_dotFree hTags htgrp) htgdf hne
  exact ⟨_, rfl⟩

/-- **C7.** De-duplication of a group's resolved member list preserves
first-occurrence order: the output is duplicate-free, is a sublist of the
input (a stable filter, not a set rebuild), contains exactly the elements of
the input, and satisfies the first-occurrence recursion — the head of the
input is kept and all of its later duplicates are dropped. In particular
`[A, B, A, C, B]` de-duplicates to `[A, B, C]`. -/
theorem dedup_first_occurrence :
    (∀ l : List String, (dedupFirst l).Nodup) ∧
    (∀ l : List String, List.Sublist (dedupFirst l) l) ∧
    (∀ (l : List String) (a : String), a ∈ dedupFirst l ↔ a ∈ l) ∧
    (∀ (a : String) (l : List String),
      dedupFirst (a :: l) = a :: dedupFirst (l.filter (fun b => b != a))) ∧
    dedupFirst ["A", "B", "A", "C", "B"] = ["A", "B", "C"] := by
  refine ⟨fun l => dedupFirstAux_nodup [] l, fun l => dedupFirstAux_sublist [] l,
    fun l a => mem_dedupFirst, fun a l => dedupFirst_cons_eq a l, by decide⟩

/-- **C8 — counterexample.** With a dotted attribute key, the grouped-tag
column is NOT the join of the instances' values: `dottedRoot` has children
`p` (twice) each carrying attribute key `a.b` and a grandchild `a` with key
`b`; the column `p.a.b` ends up holding the grandchild-group join `2 | 4`
(written later by the one-level grandchild grouping) instead of the claimed
instance-attribute join `1 | 3`. -/
theorem flatten_grouped_cex :
    "p" ∈ groupedTags dottedRoot.children.toList ∧
    "a.b" ∈ unionKeys (dottedRoot.children.toList.filter (fun c => c.tag == "p")) ∧
    (flatten_element dottedRoot "").lookup ("" ++ "p" ++ "." ++ "a.b")
      ≠ some (joinedAttr (dottedRoot.children.toList.filter
          (fun c => c.tag == "p")) "a.b") := by
  refine ⟨by decide, by decide, by decide⟩

/-- **C8 (amended).** For an element whose child tags and child attribute
keys contain no period, and any grouped child tag `tg` (occurring more than
once): every key `k` in the union of the instances' attribute keys yields a
column `pre ++ tg ++ "." ++ k` whose value is the join, in document order,
of the values of exactly the instances carrying `k` (instances lacking `k`
contribute nothing); if the union of keys is empty and some instance has
non-empty trimmed text, the column `pre ++ tg ++ "." ++ "_text"` holds the
join of those texts. Dotted tag or key names can collide with the dotted
column paths of other groups and be overwritten (see the counterexample). -/
theorem flatten_grouped_columns (el : Element) (pre tg k : String)
    (hTags : ∀ c ∈ el.children.toList, dotFree c.tag)
    (hKeys : ∀ c ∈ el.children.toList, ∀ kv ∈ c.attrib, dotFree kv.1)
    (hgrp : tg ∈ groupedTags el.children.toList) :
    (k ∈ unionKeys (el.children.toList.filter (fun c => c.tag == tg)) →
      (flatten_element el pre).lookup (pre ++ tg ++ "." ++ k)
        = some (joinedAttr (el.children.toList.filter (fun c => c.tag == tg)) k)) ∧
    (unionKeys (el.children.toList.filter (fun c => c.tag == tg)) = [] →
      groupTexts (el.children.toList.filter (fun c => c.tag == tg)) ≠ [] →
      (flatten_element el pre).lookup (pre ++ tg ++ "." ++ "_text")
        = some (joinSep (groupTexts (el.children.toList.filter
            (fun c => c.tag == tg))))) := by
  obtain ⟨t0, attrib, text, cs⟩ := el
  simp only [Element.children] at hTags hKeys hgrp ⊢
  constructor
  · intro hk
    have hkdf : dotFree k := unionKeys_dotFree hKeys
      (fun c hc => List.mem_of_mem_filter hc) hk
    obtain ⟨r0, hr0⟩ :=
      flatten_grouped_lookup_core t0 attrib text cs pre tg k hTags hgrp
    rw [hr0]
    exact groupCols_lookup_attr hk hkdf
  · intro hkeys hne
    obtain ⟨r0, hr0⟩ :=
      flatten_grouped_lookup_core t0 attrib text cs pre tg "_text" hTags hgrp
    rw [hr0]
    exact groupCols_lookup_text hkeys hne

/-- **C8 — witness.** A clean (period-free) element with two `m` children:
the `m.a` column joins the two instances' `a` values (the second instance's
extra key `b` contributes nothing to `m.a`), and in the all-text variant the
`m._text` column joins the two texts. -/
theorem flatten_grouped_columns_witness :
    (flatten_element (.mk "h" [] none (elemList
        [.mk "m" [("a", "1")] none (elemList []),
         .mk "m" [("a", "2"), ("b", "3")] none (elemList [])])) "").lookup
      ("" ++ "m" ++ "." ++ "a") = some "1 | 2" ∧
    (flatten_element (.mk "h" [] none (elemList
        [.mk "m" [] (some "x") (elemList []),
         .mk "m" [] (some "y") (elemList [])])) "").lookup
      ("" ++ "m" ++ "." ++ "_text") = some "x | y" := by
  constructor
  · have h := (flatten_grouped_columns (.mk "h" [] none (elemList
        [.mk "m" [("a", "1")] none (elemList []),
         .mk "m" [("a", "2"), ("b", "3")] none (elemList [])])) "" "m" "a"
      (by decide) (by decide) (by decide)).1 (by decide)
    rw [h]
    decide
  · have h := (flatten_grouped_columns (.mk "h" [] none (elemList
        [.mk "m" [] (some "x") (elemList []),
         .mk "m" [] (some "y") (elemList [])])) "" "m" "a"
      (by decide) (by decide) (by decide)).2 (by decide) (by decide)
    rw [h]
    decide

end Forcepoint

